import Mathlib

/-!
Verification of the `cue` authentication core: a shallow embedding, in Lean, of
the token codec (`GenerateToken` / `ValidateToken`), the certificate identity
extractor, the authentication middleware (`Middleware` / `RequireCertAuth` /
`ExtractSourceIP`) and the security-log sanitizer (`sanitize`), together with
proofs of the behavioural properties stated in the specification.

Modelling conventions:
* Go byte slices and the byte view of Go strings are `List Nat` (each entry a
  byte value); Go strings holding text are `List Char` (Unicode scalar values,
  the standard identification with valid-UTF-8 Go strings).
* `time.Time` and `time.Duration` are `Int` nanosecond counts; `Time.Unix()` is
  floor division by 10^9 (Go stores seconds plus a nonnegative sub-second part,
  so `Unix` is the floor of the nanosecond count divided by 10^9).
* Fallible Go functions return `Option` / `Except`.
-/

namespace Cue

/-- Go byte strings: a list of byte values. -/
abbrev Bytes := List Nat

/-! ## Security-log sanitizer (logging.go)

`sanitize` truncates its argument to 200 bytes (appending "...") and then
replaces every match of

  secretPattern = (eyJ[A-Za-z0-9_-]\x7b20,\x7d|[A-Fa-f0-9]\x7b32,\x7d|[A-Za-z0-9+/]\x7b32,\x7d=\x7b0,2\x7d)

by "[REDACTED]" (regexp.ReplaceAllString, leftmost-first Go/Perl match
semantics: earliest start position wins, at equal start the earlier
alternative wins, quantifiers are greedy, scanning resumes after each match).
-/

/-- Byte is in `[A-Fa-f0-9]` (hex class of secretPattern). -/
def isHexByte (b : Nat) : Bool :=
  (48 ≤ b && b ≤ 57) || (65 ≤ b && b ≤ 70) || (97 ≤ b && b ≤ 102)

/-- Byte is in `[A-Za-z0-9+/]` (base64 class of secretPattern). -/
def isB64Byte (b : Nat) : Bool :=
  (48 ≤ b && b ≤ 57) || (65 ≤ b && b ≤ 90) || (97 ≤ b && b ≤ 122) || b == 43 || b == 47

/-- Byte is in `[A-Za-z0-9_-]` (token-blob class of secretPattern). -/
def isTokByte (b : Nat) : Bool :=
  (48 ≤ b && b ≤ 57) || (65 ≤ b && b ≤ 90) || (97 ≤ b && b ≤ 122) || b == 95 || b == 45

/-- Length of the run of bytes satisfying `p` at the head of the list. -/
def countWhile (p : Nat → Bool) : Bytes → Nat
  | [] => 0
  | b :: t => if p b then countWhile p t + 1 else 0

/-- Third alternative of secretPattern at the current position:
`[A-Za-z0-9+/]\x7b32,\x7d=\x7b0,2\x7d`, greedy. -/
def tryMatch3 (l : Bytes) : Option Nat :=
  if 32 ≤ countWhile isB64Byte l
  then some (countWhile isB64Byte l +
        min (countWhile (fun x => x == 61) (l.drop (countWhile isB64Byte l))) 2)
  else none

/-- Second then third alternative of secretPattern at the current position. -/
def tryMatch2 (l : Bytes) : Option Nat :=
  if 32 ≤ countWhile isHexByte l then some (countWhile isHexByte l) else tryMatch3 l

/-- secretPattern attempted at the current position, Perl alternation order
(`eyJ…` first, then the hex run, then the base64 run), greedy quantifiers.
Returns the number of bytes matched. -/
def tryMatch (l : Bytes) : Option Nat :=
  match l with
  | 101 :: 121 :: 74 :: rest =>
    if 20 ≤ countWhile isTokByte rest
    then some (3 + countWhile isTokByte rest)
    else tryMatch2 l
  | _ => tryMatch2 l

/-- The replacement text "[REDACTED]" as bytes. -/
def redactedMarker : Bytes := [91, 82, 69, 68, 65, 67, 84, 69, 68, 93]

lemma countWhile_le_length (p : Nat → Bool) : ∀ l : Bytes, countWhile p l ≤ l.length := by
  intro l
  induction l with
  | nil => simp [countWhile]
  | cons b t ih =>
    simp only [countWhile, List.length_cons]
    split
    · omega
    · omega

lemma tryMatch3_some_len {l : Bytes} {n : Nat} (h : tryMatch3 l = some n) :
    1 ≤ n ∧ n ≤ l.length := by
  unfold tryMatch3 at h
  split at h
  · rename_i hb
    have h1 := countWhile_le_length isB64Byte l
    have h2 := countWhile_le_length (fun x => x == 61) (l.drop (countWhile isB64Byte l))
    simp only [List.length_drop] at h2
    have := min_le_left (countWhile (fun x => x == 61) (l.drop (countWhile isB64Byte l))) 2
    simp only [Option.some.injEq] at h
    omega
  · exact absurd h (by simp)

lemma tryMatch2_some_len {l : Bytes} {n : Nat} (h : tryMatch2 l = some n) :
    1 ≤ n ∧ n ≤ l.length := by
  unfold tryMatch2 at h
  split at h
  · rename_i hh
    have h1 := countWhile_le_length isHexByte l
    simp only [Option.some.injEq] at h
    omega
  · exact tryMatch3_some_len h

lemma tryMatch_some_len {l : Bytes} {n : Nat} (h : tryMatch l = some n) :
    1 ≤ n ∧ n ≤ l.length := by
  unfold tryMatch at h
  split at h
  · rename_i rest
    by_cases hk : 20 ≤ countWhile isTokByte rest
    · rw [if_pos hk] at h
      simp only [Option.some.injEq] at h
      have h1 := countWhile_le_length isTokByte rest
      simp only [List.length_cons]
      omega
    · rw [if_neg hk] at h
      exact tryMatch2_some_len h
  · exact tryMatch2_some_len h

/-- `secretPattern.ReplaceAllString(s, "[REDACTED]")`: scan left to right; at
each position try the pattern; on a match emit the marker and resume after the
matched bytes, otherwise keep the byte and move one position right. -/
def replaceSecrets (l : Bytes) : Bytes :=
  match hm : tryMatch l with
  | some n => redactedMarker ++ replaceSecrets (l.drop n)
  | none =>
    match l with
    | [] => []
    | b :: t => b :: replaceSecrets t
termination_by l.length
decreasing_by
  · have := tryMatch_some_len hm
    simp only [List.length_drop]
    omega
  · simp

/-- The truncation marker "..." as bytes. -/
def truncDots : Bytes := [46, 46, 46]

/-- `sanitize` from logging.go: truncate to 200 bytes plus "..." when longer
than 200 bytes, then redact secretPattern matches. -/
def sanitize (s : Bytes) : Bytes :=
  let s1 := if 200 < s.length then s.take 200 ++ truncDots else s
  replaceSecrets s1

/-- Spec-side predicate (from the specification's words): the list starts with
a token-like prefixed blob, "eyJ" followed by at least 20 token characters. -/
def eyJAt : Bytes → Bool
  | 101 :: 121 :: 74 :: rest => decide (20 ≤ countWhile isTokByte rest)
  | _ => false

/-- Spec-side predicate: a "looks like a secret" run starts at the head of the
list — a long (≥ 32) contiguous hex run, a long (≥ 32) contiguous
base64-alphabet run, or a token-like prefixed blob. -/
def runAt (l : Bytes) : Bool :=
  decide (32 ≤ countWhile isHexByte l) || decide (32 ≤ countWhile isB64Byte l) || eyJAt l

/-- Spec-side predicate: some substring of the list is a long contiguous hex
run, a long contiguous base64-alphabet run, or a token-like prefixed blob. -/
def hasSecretRun : Bytes → Bool
  | [] => false
  | b :: t => runAt (b :: t) || hasSecretRun t

lemma replaceSecrets_nil : replaceSecrets [] = [] := by
  unfold replaceSecrets
  split
  · rename_i n hm
    have := tryMatch_some_len hm
    simp at this
    exfalso
    omega
  · rfl

lemma replaceSecrets_some {l : Bytes} {n : Nat} (h : tryMatch l = some n) :
    replaceSecrets l = redactedMarker ++ replaceSecrets (l.drop n) := by
  conv_lhs => unfold replaceSecrets
  split
  · rename_i n' hm
    rw [h] at hm
    injection hm with hm'
    rw [hm']
  · rename_i hm
    rw [h] at hm
    exact absurd hm (by simp)

lemma replaceSecrets_none_cons {b : Nat} {t : Bytes} (h : tryMatch (b :: t) = none) :
    replaceSecrets (b :: t) = b :: replaceSecrets t := by
  conv_lhs => unfold replaceSecrets
  split
  · rename_i n' hm
    rw [h] at hm
    exact absurd hm (by simp)
  · rfl

lemma countWhile_mono {p q : Nat → Bool} (hpq : ∀ b, p b = true → q b = true) :
    ∀ l : Bytes, countWhile p l ≤ countWhile q l := by
  intro l
  induction l with
  | nil => simp [countWhile]
  | cons b t ih =>
    simp only [countWhile]
    by_cases hb : p b = true
    · rw [if_pos hb, if_pos (hpq b hb)]
      omega
    · rw [if_neg hb]
      omega

lemma countWhile_append_of_lt {p : Nat → Bool} {xs : Bytes} (ys : Bytes)
    (h : countWhile p xs < xs.length) :
    countWhile p (xs ++ ys) = countWhile p xs := by
  induction xs with
  | nil => simp at h
  | cons b t ih =>
    simp only [countWhile, List.cons_append, List.length_cons] at h ⊢
    by_cases hb : p b = true
    · simp only [hb, if_true] at h ⊢
      rw [show t.append ys = t ++ ys from rfl, ih (by omega)]
    · simp [hb]

lemma countWhile_cons_le {p : Nat → Bool} {b : Nat} {x y : Bytes}
    (h : countWhile p x ≤ countWhile p y) :
    countWhile p (b :: x) ≤ countWhile p (b :: y) := by
  simp only [countWhile]
  split
  · omega
  · omega

lemma hex_imp_b64 {b : Nat} (h : isHexByte b = true) : isB64Byte b = true := by
  simp only [isHexByte, Bool.or_eq_true, Bool.and_eq_true, decide_eq_true_eq] at h
  simp only [isB64Byte, Bool.or_eq_true, Bool.and_eq_true, decide_eq_true_eq, beq_iff_eq]
  omega

lemma tok_not_bracket : isTokByte 91 = false := by decide

/-- Redaction can only shorten an initial run of a class that excludes the
opening bracket of the marker. -/
lemma countWhile_replaceSecrets_le (p : Nat → Bool) (hp : p 91 = false) :
    ∀ l : Bytes, countWhile p (replaceSecrets l) ≤ countWhile p l := by
  intro l
  induction l using replaceSecrets.induct with
  | case1 l n hm ih =>
    rw [replaceSecrets_some hm]
    simp [redactedMarker, countWhile, hp]
  | case2 => simp [replaceSecrets_nil]
  | case3 b t hm hm2 ih =>
    rw [replaceSecrets_none_cons hm]
    exact countWhile_cons_le ih

lemma tryMatch3_none {l : Bytes} (h : tryMatch3 l = none) : countWhile isB64Byte l < 32 := by
  unfold tryMatch3 at h
  split at h
  · exact absurd h (by simp)
  · omega

lemma tryMatch2_none {l : Bytes} (h : tryMatch2 l = none) : countWhile isB64Byte l < 32 := by
  unfold tryMatch2 at h
  split at h
  · exact absurd h (by simp)
  · exact tryMatch3_none h

lemma tryMatch_none_b64 {l : Bytes} (h : tryMatch l = none) : countWhile isB64Byte l < 32 := by
  unfold tryMatch at h
  split at h
  · rename_i rest
    split at h
    · exact absurd h (by simp)
    · exact tryMatch2_none h
  · exact tryMatch2_none h

lemma tryMatch_none_eyJ {rest : Bytes} (h : tryMatch (101 :: 121 :: 74 :: rest) = none) :
    countWhile isTokByte rest < 20 := by
  unfold tryMatch at h
  simp only at h
  split at h
  · exact absurd h (by simp)
  · omega

lemma eyJAt_true {x : Bytes} (h : eyJAt x = true) :
    ∃ rest, x = 101 :: 121 :: 74 :: rest ∧ 20 ≤ countWhile isTokByte rest := by
  unfold eyJAt at h
  split at h
  · rename_i rest
    exact ⟨rest, rfl, by simpa using h⟩
  · exact absurd h (by simp)

lemma runAt_false_parts {x : Bytes} (h1 : countWhile isB64Byte x < 32) (he : eyJAt x = false) :
    runAt x = false := by
  have h2 : countWhile isHexByte x < 32 :=
    lt_of_le_of_lt (countWhile_mono (fun b => hex_imp_b64) x) h1
  simp only [runAt, he, Bool.or_false, Bool.or_eq_false_iff, decide_eq_false_iff_not]
  omega

lemma runAt_stop {xs : Bytes} (out : Bytes) (hlt : countWhile isB64Byte xs < xs.length)
    (h32 : countWhile isB64Byte xs < 32) (he : eyJAt (xs ++ out) = false) :
    runAt (xs ++ out) = false := by
  apply runAt_false_parts
  · rw [countWhile_append_of_lt out hlt]
    exact h32
  · exact he

lemma hasSecretRun_marker (out : Bytes) (h : hasSecretRun out = false) :
    hasSecretRun (redactedMarker ++ out) = false := by
  have g0 : runAt (([91, 82, 69, 68, 65, 67, 84, 69, 68, 93] : Bytes) ++ out) = false :=
    runAt_stop out (by decide) (by decide) rfl
  have g1 : runAt (([82, 69, 68, 65, 67, 84, 69, 68, 93] : Bytes) ++ out) = false :=
    runAt_stop out (by decide) (by decide) rfl
  have g2 : runAt (([69, 68, 65, 67, 84, 69, 68, 93] : Bytes) ++ out) = false :=
    runAt_stop out (by decide) (by decide) rfl
  have g3 : runAt (([68, 65, 67, 84, 69, 68, 93] : Bytes) ++ out) = false :=
    runAt_stop out (by decide) (by decide) rfl
  have g4 : runAt (([65, 67, 84, 69, 68, 93] : Bytes) ++ out) = false :=
    runAt_stop out (by decide) (by decide) rfl
  have g5 : runAt (([67, 84, 69, 68, 93] : Bytes) ++ out) = false :=
    runAt_stop out (by decide) (by decide) rfl
  have g6 : runAt (([84, 69, 68, 93] : Bytes) ++ out) = false :=
    runAt_stop out (by decide) (by decide) rfl
  have g7 : runAt (([69, 68, 93] : Bytes) ++ out) = false :=
    runAt_stop out (by decide) (by decide) rfl
  have g8 : runAt (([68, 93] : Bytes) ++ out) = false :=
    runAt_stop out (by decide) (by decide) rfl
  have g9 : runAt (([93] : Bytes) ++ out) = false :=
    runAt_stop out (by decide) (by decide) rfl
  simp only [List.cons_append, List.nil_append] at g0 g1 g2 g3 g4 g5 g6 g7 g8 g9
  simp only [redactedMarker, List.cons_append, List.nil_append, List.append_eq, hasSecretRun,
    g0, g1, g2, g3, g4, g5, g6, g7, g8, g9, h, Bool.or_false, Bool.false_or]

/-- Inversion: a byte other than the marker's opening bracket at the head of a
redacted string was an unmatched head byte of the input. -/
lemma replaceSecrets_cons_inv {t : Bytes} {c : Nat} {out : Bytes}
    (h : replaceSecrets t = c :: out) (hc : c ≠ 91) :
    ∃ t', t = c :: t' ∧ tryMatch t = none ∧ out = replaceSecrets t' := by
  cases t with
  | nil =>
    rw [replaceSecrets_nil] at h
    exact absurd h (by simp)
  | cons b t' =>
    cases htm : tryMatch (b :: t') with
    | some n =>
      rw [replaceSecrets_some htm] at h
      simp only [redactedMarker, List.cons_append] at h
      injection h with h1 h2
      exact absurd h1.symm hc
    | none =>
      rw [replaceSecrets_none_cons htm] at h
      injection h with h1 h2
      subst h1
      exact ⟨t', rfl, rfl, h2.symm⟩

/-- Core invariant: no "looks like a secret" run survives redaction. -/
lemma hasSecretRun_replaceSecrets (l : Bytes) : hasSecretRun (replaceSecrets l) = false := by
  induction l using replaceSecrets.induct with
  | case1 l n hm ih =>
    rw [replaceSecrets_some hm]
    exact hasSecretRun_marker _ ih
  | case2 => simp [replaceSecrets_nil, hasSecretRun]
  | case3 b t hm hm2 ih =>
    rw [replaceSecrets_none_cons hm]
    simp only [hasSecretRun, ih, Bool.or_false]
    apply runAt_false_parts
    · calc countWhile isB64Byte (b :: replaceSecrets t)
          ≤ countWhile isB64Byte (b :: t) :=
            countWhile_cons_le (countWhile_replaceSecrets_le isB64Byte (by decide) t)
        _ < 32 := tryMatch_none_b64 hm
    · by_contra he
      rw [Bool.not_eq_false] at he
      obtain ⟨rest, hx, hk⟩ := eyJAt_true he
      have hb : b = 101 := by
        injection hx with h1 _
      injection hx with h1 hx2
      obtain ⟨t1, ht1, htm1, hout1⟩ := replaceSecrets_cons_inv hx2 (by decide)
      obtain ⟨t2, ht2, htm2, hout2⟩ := replaceSecrets_cons_inv hout1.symm (by decide)
      have hk2 : countWhile isTokByte (replaceSecrets t2) ≤ countWhile isTokByte t2 :=
        countWhile_replaceSecrets_le isTokByte (by decide) t2
      rw [← hout2] at hk2
      have hlt : countWhile isTokByte t2 < 20 := by
        apply tryMatch_none_eyJ
        rw [← ht2, ← ht1, ← hb]
        exact hm
      omega

lemma tryMatch2_some_ge {l : Bytes} {n : Nat} (h : tryMatch2 l = some n) :
    32 ≤ countWhile isHexByte l ∨ 32 ≤ countWhile isB64Byte l := by
  unfold tryMatch2 at h
  split at h
  · left
    omega
  · unfold tryMatch3 at h
    split at h
    · right
      omega
    · exact absurd h (by simp)

lemma tryMatch_isSome_of_runAt {l : Bytes} (h : runAt l = true) : (tryMatch l).isSome = true := by
  simp only [runAt, Bool.or_eq_true, decide_eq_true_eq] at h
  rcases h with (h | h) | he
  · cases hs : tryMatch l with
    | some n => simp
    | none =>
      have hb := tryMatch_none_b64 hs
      have := @countWhile_mono isHexByte isB64Byte (fun b hb => hex_imp_b64 hb) l
      omega
  · cases hs : tryMatch l with
    | some n => simp
    | none =>
      have hb := tryMatch_none_b64 hs
      omega
  · obtain ⟨rest, hx, hk⟩ := eyJAt_true he
    subst hx
    cases hs : tryMatch (101 :: 121 :: 74 :: rest) with
    | some n => simp
    | none =>
      have := tryMatch_none_eyJ hs
      omega

lemma runAt_of_tryMatch_some {l : Bytes} {n : Nat} (h : tryMatch l = some n) :
    runAt l = true := by
  unfold tryMatch at h
  simp only [runAt, Bool.or_eq_true, decide_eq_true_eq]
  split at h
  · rename_i rest
    split at h
    · rename_i hk
      right
      simpa [eyJAt] using hk
    · rcases tryMatch2_some_ge h with h2 | h2
      · left
        left
        exact h2
      · left
        right
        exact h2
  · rcases tryMatch2_some_ge h with h2 | h2
    · left
      left
      exact h2
    · left
      right
      exact h2

/-- Redaction is the identity on strings without a secret-like run. -/
lemma replaceSecrets_id {l : Bytes} (h : hasSecretRun l = false) : replaceSecrets l = l := by
  induction l with
  | nil => exact replaceSecrets_nil
  | cons b t ih =>
    simp only [hasSecretRun, Bool.or_eq_false_iff] at h
    cases htm : tryMatch (b :: t) with
    | some n =>
      have := runAt_of_tryMatch_some htm
      rw [this] at h
      exact absurd h.1 (by simp)
    | none =>
      rw [replaceSecrets_none_cons htm, ih h.2]

/-- Whenever the input contains a secret-like run, the redaction marker appears
in the output. -/
lemma marker_infix_of_run {l : Bytes} (h : hasSecretRun l = true) :
    redactedMarker <:+: replaceSecrets l := by
  induction l with
  | nil => exact absurd h (by simp [hasSecretRun])
  | cons b t ih =>
    cases htm : tryMatch (b :: t) with
    | some n =>
      rw [replaceSecrets_some htm]
      exact (List.prefix_append _ _).isInfix
    | none =>
      rw [replaceSecrets_none_cons htm]
      have hr : runAt (b :: t) = false := by
        by_contra hr
        rw [Bool.not_eq_false] at hr
        have hsm := tryMatch_isSome_of_runAt hr
        rw [htm] at hsm
        simp at hsm
      simp only [hasSecretRun, hr, Bool.false_or] at h
      exact List.infix_cons (ih h)

/-- C7. `sanitize` (i) on inputs longer than 200 bytes acts as truncation to
200 bytes plus the "..." marker, followed by secret redaction; (ii) replaces
secret-like runs: no long hex run, long base64 run, or token-like blob
survives in its output, and whenever the (truncated) input contains one the
output contains the "[REDACTED]" marker; (iii) returns any input of at most
200 bytes with no secret-like run unchanged. -/
theorem C7_sanitize_truncates_redacts_preserves :
    (∀ s : Bytes, 200 < s.length → sanitize s = replaceSecrets (s.take 200 ++ truncDots)) ∧
    (∀ s : Bytes, hasSecretRun (sanitize s) = false) ∧
    (∀ s : Bytes,
      hasSecretRun (if 200 < s.length then s.take 200 ++ truncDots else s) = true →
      redactedMarker <:+: sanitize s) ∧
    (∀ s : Bytes, s.length ≤ 200 → hasSecretRun s = false → sanitize s = s) := by
  refine ⟨?_, ?_, ?_, ?_⟩
  · intro s hs
    simp only [sanitize, if_pos hs]
  · intro s
    exact hasSecretRun_replaceSecrets _
  · intro s hrun
    exact marker_infix_of_run hrun
  · intro s hlen hrun
    have hif : ¬200 < s.length := by omega
    simp only [sanitize, if_neg hif]
    exact replaceSecrets_id hrun

set_option maxRecDepth 8000 in
/-- Witness for C7 at concrete inputs: a 201-byte input is truncated and
redacted; a 32-byte base64 run produces the marker; a short benign string is
unchanged. -/
theorem C7_sanitize_truncates_redacts_preserves_witness :
    sanitize (List.replicate 201 46) =
      replaceSecrets ((List.replicate 201 46).take 200 ++ truncDots) ∧
    redactedMarker <:+: sanitize (List.replicate 32 97) ∧
    sanitize [104, 101, 108, 108, 111] = [104, 101, 108, 108, 111] :=
  ⟨C7_sanitize_truncates_redacts_preserves.1 _ (by decide),
   C7_sanitize_truncates_redacts_preserves.2.2.1 _ (by decide),
   C7_sanitize_truncates_redacts_preserves.2.2.2 _ (by decide) (by decide)⟩

/-! ## Token codec (token.go)

Go strings holding text are modelled as `List Char`; the byte views that the
MAC, the base64 codec and the JSON codec operate on are `List Nat`. `time.Time`
and `time.Duration` are `Int` nanosecond counts; `Unix()` is floor division by
10^9 (Lean's `Int` division is Euclidean division, which is floor division for
a positive divisor, matching Go's seconds field).
-/

/-- `time.Time.Unix()`: seconds since the epoch, the floor of the nanosecond
count divided by 10^9. -/
def unixSec (t : Int) : Int := t / 1000000000

/-- `TokenClaims`: the payload of an API token (`cn`, `iat`, `exp`). -/
structure TokenClaims where
  cn : List Char
  iat : Int
  exp : Int
deriving DecidableEq

/-- Lowercase hex digit byte for a value below 16 (strconv/json escaping). -/
def hexDigitByte (n : Nat) : Nat := if n < 10 then 48 + n else 87 + n

/-- Value of a hex digit byte. -/
def hexVal (b : Nat) : Option Nat :=
  if 48 ≤ b ∧ b ≤ 57 then some (b - 48)
  else if 97 ≤ b ∧ b ≤ 102 then some (b - 87)
  else if 65 ≤ b ∧ b ≤ 70 then some (b - 55)
  else none

/-- The code point is a Unicode scalar value. -/
def validScalar (n : Nat) : Bool :=
  decide (n < 55296) || (decide (57344 ≤ n) && decide (n < 1114112))

/-- UTF-8 encoding of one scalar value (Go strings are UTF-8 bytes). -/
def utf8EncodeChar (c : Char) : Bytes :=
  if c.toNat < 128 then [c.toNat]
  else if c.toNat < 2048 then [192 + c.toNat / 64, 128 + c.toNat % 64]
  else if c.toNat < 65536 then
    [224 + c.toNat / 4096, 128 + c.toNat / 64 % 64, 128 + c.toNat % 64]
  else
    [240 + c.toNat / 262144, 128 + c.toNat / 4096 % 64, 128 + c.toNat / 64 % 64,
      128 + c.toNat % 64]

/-- Decode the first UTF-8 sequence of the byte list (unicode/utf8.DecodeRune
shape: rejects truncated sequences, stray continuation bytes, overlong forms,
surrogates and values above U+10FFFF). -/
def utf8DecodeFirst : Bytes → Option (Nat × Bytes)
  | [] => none
  | b :: rest =>
    if b < 128 then some (b, rest)
    else if b < 194 then none
    else if b < 224 then
      match rest with
      | b1 :: r =>
        if 128 ≤ b1 ∧ b1 < 192 then some ((b - 192) * 64 + (b1 - 128), r) else none
      | [] => none
    else if b < 240 then
      match rest with
      | b1 :: b2 :: r =>
        if 128 ≤ b1 ∧ b1 < 192 ∧ 128 ≤ b2 ∧ b2 < 192 ∧
            (b = 224 → 160 ≤ b1) ∧ (b = 237 → b1 < 160)
        then some ((b - 224) * 4096 + (b1 - 128) * 64 + (b2 - 128), r)
        else none
      | _ => none
    else if b < 245 then
      match rest with
      | b1 :: b2 :: b3 :: r =>
        if 128 ≤ b1 ∧ b1 < 192 ∧ 128 ≤ b2 ∧ b2 < 192 ∧ 128 ≤ b3 ∧ b3 < 192 ∧
            (b = 240 → 144 ≤ b1) ∧ (b = 244 → b1 < 144)
        then some ((b - 240) * 262144 + (b1 - 128) * 4096 + (b2 - 128) * 64 + (b3 - 128), r)
        else none
      | _ => none
    else none

lemma char_toNat_valid (c : Char) :
    c.toNat < 55296 ∨ (57344 ≤ c.toNat ∧ c.toNat < 1114112) := by
  have h := c.valid
  rcases h with h | ⟨h1, h2⟩
  · left
    exact h
  · right
    exact ⟨h1, h2⟩

lemma utf8DecodeFirst_shorter {l : Bytes} {n : Nat} {r : Bytes}
    (h : utf8DecodeFirst l = some (n, r)) : r.length < l.length := by
  cases l with
  | nil => simp [utf8DecodeFirst] at h
  | cons b rest =>
    simp only [utf8DecodeFirst] at h
    repeat' split at h
    all_goals try simp_all
    all_goals omega

/-- UTF-8 decoding inverts UTF-8 encoding at the head of any byte stream. -/
lemma utf8_roundtrip (c : Char) (rest : Bytes) :
    utf8DecodeFirst (utf8EncodeChar c ++ rest) = some (c.toNat, rest) := by
  have hv := char_toNat_valid c
  by_cases h1 : c.toNat < 128
  · simp only [utf8EncodeChar, if_pos h1, List.cons_append, List.nil_append]
    simp [utf8DecodeFirst, h1]
  · by_cases h2 : c.toNat < 2048
    · simp only [utf8EncodeChar, if_neg h1, if_pos h2, List.cons_append, List.nil_append]
      simp only [utf8DecodeFirst]
      rw [if_neg (by omega), if_neg (by omega), if_pos (by omega), if_pos (by omega)]
      simp only [Option.some.injEq, Prod.mk.injEq]
      exact ⟨by omega, trivial⟩
    · by_cases h3 : c.toNat < 65536
      · simp only [utf8EncodeChar, if_neg h1, if_neg h2, if_pos h3, List.cons_append,
          List.nil_append]
        simp only [utf8DecodeFirst]
        rw [if_neg (by omega), if_neg (by omega), if_neg (by omega), if_pos (by omega),
          if_pos (by omega)]
        simp only [Option.some.injEq, Prod.mk.injEq]
        exact ⟨by omega, trivial⟩
      · simp only [utf8EncodeChar, if_neg h1, if_neg h2, if_neg h3, List.cons_append,
          List.nil_append]
        simp only [utf8DecodeFirst]
        rw [if_neg (by omega), if_neg (by omega), if_neg (by omega), if_neg (by omega),
          if_pos (by omega), if_pos (by omega)]
        simp only [Option.some.injEq, Prod.mk.injEq]
        exact ⟨by omega, trivial⟩

/-- Go `encoding/json` escaping of one character of a string value (default
encoder: `"`, `\`, `\n`, `\r`, `\t` use short escapes; other control
characters become `\u00XX`; `<`, `>`, `&` are HTML-escaped; U+2028/U+2029 are
escaped; everything else is emitted as its UTF-8 bytes). -/
def jsonEscapeChar (c : Char) : Bytes :=
  if c.toNat = 34 then [92, 34]
  else if c.toNat = 92 then [92, 92]
  else if c.toNat = 10 then [92, 110]
  else if c.toNat = 13 then [92, 114]
  else if c.toNat = 9 then [92, 116]
  else if c.toNat < 32 then
    [92, 117, 48, 48, hexDigitByte (c.toNat / 16), hexDigitByte (c.toNat % 16)]
  else if c.toNat = 60 then [92, 117, 48, 48, 51, 99]
  else if c.toNat = 62 then [92, 117, 48, 48, 51, 101]
  else if c.toNat = 38 then [92, 117, 48, 48, 50, 54]
  else if c.toNat = 8232 then [92, 117, 50, 48, 50, 56]
  else if c.toNat = 8233 then [92, 117, 50, 48, 50, 57]
  else utf8EncodeChar c

/-- Go `encoding/json` escaping of a whole string value (without the
surrounding quotes). -/
def jsonEscape : List Char → Bytes
  | [] => []
  | c :: t => jsonEscapeChar c ++ jsonEscape t

/-- Go `encoding/json` string-value parser: consumes bytes after an opening
quote up to and including the closing quote, unescaping as it goes; returns
the decoded characters and the bytes after the closing quote. The fuel
argument only bounds recursion depth; one unit is spent per character and
every character consumes at least one byte, so `parseStr` below supplies the
input length as fuel, which never runs out. -/
def parseStrF : Nat → Bytes → Option (List Char × Bytes)
  | 0, _ => none
  | fuel + 1, l =>
    match l with
    | [] => none
    | b :: rest =>
      if b = 34 then some ([], rest)
      else if b = 92 then
        match rest with
        | [] => none
        | e :: r2 =>
          if e = 34 then (parseStrF fuel r2).map (fun p => (Char.ofNat 34 :: p.1, p.2))
          else if e = 92 then (parseStrF fuel r2).map (fun p => (Char.ofNat 92 :: p.1, p.2))
          else if e = 47 then (parseStrF fuel r2).map (fun p => (Char.ofNat 47 :: p.1, p.2))
          else if e = 110 then (parseStrF fuel r2).map (fun p => (Char.ofNat 10 :: p.1, p.2))
          else if e = 114 then (parseStrF fuel r2).map (fun p => (Char.ofNat 13 :: p.1, p.2))
          else if e = 116 then (parseStrF fuel r2).map (fun p => (Char.ofNat 9 :: p.1, p.2))
          else if e = 98 then (parseStrF fuel r2).map (fun p => (Char.ofNat 8 :: p.1, p.2))
          else if e = 102 then (parseStrF fuel r2).map (fun p => (Char.ofNat 12 :: p.1, p.2))
          else if e = 117 then
            match r2 with
            | hx1 :: hx2 :: hx3 :: hx4 :: r =>
              match hexVal hx1, hexVal hx2, hexVal hx3, hexVal hx4 with
              | some v1, some v2, some v3, some v4 =>
                if validScalar (((v1 * 16 + v2) * 16 + v3) * 16 + v4)
                then (parseStrF fuel r).map
                  (fun p => (Char.ofNat (((v1 * 16 + v2) * 16 + v3) * 16 + v4) :: p.1, p.2))
                else none
              | _, _, _, _ => none
            | _ => none
          else none
      else if b < 32 then none
      else
        match utf8DecodeFirst (b :: rest) with
        | some (n, r) =>
          if validScalar n then (parseStrF fuel r).map (fun p => (Char.ofNat n :: p.1, p.2))
          else none
        | none => none

/-- The JSON string-value parser, with enough fuel for its input. -/
def parseStr (l : Bytes) : Option (List Char × Bytes) := parseStrF l.length l

lemma validScalar_toNat (c : Char) : validScalar c.toNat = true := by
  rcases char_toNat_valid c with h | ⟨ha, hb⟩ <;> simp [validScalar] <;> omega

lemma utf8_head_facts (c : Char) (h34 : c.toNat ≠ 34) (h92 : c.toNat ≠ 92)
    (h32 : ¬c.toNat < 32) :
    ∃ b0 t0, utf8EncodeChar c = b0 :: t0 ∧ b0 ≠ 34 ∧ b0 ≠ 92 ∧ ¬b0 < 32 := by
  unfold utf8EncodeChar
  by_cases hc1 : c.toNat < 128
  · rw [if_pos hc1]
    exact ⟨c.toNat, [], rfl, h34, h92, h32⟩
  · by_cases hc2 : c.toNat < 2048
    · rw [if_neg hc1, if_pos hc2]
      exact ⟨_, _, rfl, by omega, by omega, by omega⟩
    · by_cases hc3 : c.toNat < 65536
      · rw [if_neg hc1, if_neg hc2, if_pos hc3]
        exact ⟨_, _, rfl, by omega, by omega, by omega⟩
      · rw [if_neg hc1, if_neg hc2, if_neg hc3]
        exact ⟨_, _, rfl, by omega, by omega, by omega⟩

lemma parseStrF_esc2 {e cc : Nat} (f : Nat) (rest : Bytes)
    (he : (e, cc) = (34, 34) ∨ (e, cc) = (92, 92) ∨ (e, cc) = (47, 47) ∨ (e, cc) = (110, 10) ∨
      (e, cc) = (114, 13) ∨ (e, cc) = (116, 9) ∨ (e, cc) = (98, 8) ∨ (e, cc) = (102, 12)) :
    parseStrF (f + 1) (92 :: e :: rest) =
      (parseStrF f rest).map (fun p => (Char.ofNat cc :: p.1, p.2)) := by
  rcases he with h | h | h | h | h | h | h | h <;>
    (injection h with h1 h2; subst h1; subst h2) <;> simp [parseStrF]

lemma parseStrF_u {h1 h2 h3 h4 v1 v2 v3 v4 : Nat} (f : Nat) (rest : Bytes)
    (e1 : hexVal h1 = some v1) (e2 : hexVal h2 = some v2) (e3 : hexVal h3 = some v3)
    (e4 : hexVal h4 = some v4)
    (hs : validScalar (((v1 * 16 + v2) * 16 + v3) * 16 + v4) = true) :
    parseStrF (f + 1) (92 :: 117 :: h1 :: h2 :: h3 :: h4 :: rest) =
      (parseStrF f rest).map
        (fun p => (Char.ofNat (((v1 * 16 + v2) * 16 + v3) * 16 + v4) :: p.1, p.2)) := by
  simp only [parseStrF, show ((92 : Nat) = 34) = False by simp, show ((92 : Nat) = 92) = True by
    simp, if_false, if_true]
  rw [e1, e2, e3, e4]
  simp [hs]

/-- A character emitted as raw UTF-8 is consumed as one character by the
string parser. -/
lemma parseStrF_utf8 (c : Char) (tail : Bytes) (f : Nat) (h34 : c.toNat ≠ 34)
    (h92 : c.toNat ≠ 92) (h32 : ¬c.toNat < 32) :
    parseStrF (f + 1) (utf8EncodeChar c ++ tail) =
      (parseStrF f tail).map (fun p => (c :: p.1, p.2)) := by
  obtain ⟨b0, t0, henc, hb34, hb92, hb32⟩ := utf8_head_facts c h34 h92 h32
  have hdec : utf8DecodeFirst (b0 :: (t0 ++ tail)) = some (c.toNat, tail) := by
    have := utf8_roundtrip c tail
    rw [henc] at this
    simpa using this
  rw [henc]
  simp only [List.cons_append, parseStrF, if_neg hb34, if_neg hb92, if_neg hb32]
  rw [hdec]
  simp only [if_pos (validScalar_toNat c), Char.ofNat_toNat]

lemma utf8EncodeChar_length_pos (c : Char) : 0 < (utf8EncodeChar c).length := by
  unfold utf8EncodeChar
  split_ifs <;> simp

lemma hexVal_hexDigitByte {m : Nat} (hm : m < 16) : hexVal (hexDigitByte m) = some m := by
  unfold hexVal hexDigitByte
  split
  · rw [if_pos (by omega)]
    simp only [Option.some.injEq]
    omega
  · rw [if_neg (by omega), if_pos (by omega)]
    simp only [Option.some.injEq]
    omega

/-- The JSON string parser inverts JSON string escaping: parsing the escaped
bytes followed by a closing quote recovers exactly the original characters. -/
lemma parseStrF_escape (cs : List Char) : ∀ (fuel : Nat) (rest : Bytes),
    (jsonEscape cs ++ 34 :: rest).length ≤ fuel →
    parseStrF fuel (jsonEscape cs ++ 34 :: rest) = some (cs, rest) := by
  induction cs with
  | nil =>
    intro fuel rest hf
    simp only [jsonEscape, List.nil_append, List.length_cons] at hf
    cases fuel with
    | zero => omega
    | succ f => simp [jsonEscape, parseStrF]
  | cons c cs' ih =>
    intro fuel rest hf
    have ev0 : hexVal 48 = some 0 := by decide
    have ev2 : hexVal 50 = some 2 := by decide
    have ev3 : hexVal 51 = some 3 := by decide
    have ev6 : hexVal 54 = some 6 := by decide
    have ev8 : hexVal 56 = some 8 := by decide
    have ev9 : hexVal 57 = some 9 := by decide
    have evc : hexVal 99 = some 12 := by decide
    have eve : hexVal 101 = some 14 := by decide
    rw [show jsonEscape (c :: cs') = jsonEscapeChar c ++ jsonEscape cs' from rfl,
      List.append_assoc] at hf ⊢
    by_cases h1 : c.toNat = 34
    · have he : jsonEscapeChar c = [92, 34] := by simp [jsonEscapeChar, h1]
      rw [he] at hf ⊢
      simp only [List.cons_append, List.nil_append, List.length_cons, List.length_append] at hf ⊢
      cases fuel with
      | zero => omega
      | succ f =>
        rw [parseStrF_esc2 f _ (by left; rfl),
          ih f rest (by simp only [List.length_append, List.length_cons]; omega)]
        simp only [Option.map, show Char.ofNat 34 = c from by rw [← h1, Char.ofNat_toNat]]
    · by_cases h2 : c.toNat = 92
      · have he : jsonEscapeChar c = [92, 92] := by simp [jsonEscapeChar, h1, h2]
        rw [he] at hf ⊢
        simp only [List.cons_append, List.nil_append, List.length_cons,
          List.length_append] at hf ⊢
        cases fuel with
        | zero => omega
        | succ f =>
          rw [parseStrF_esc2 f _ (by right; left; rfl),
            ih f rest (by simp only [List.length_append, List.length_cons]; omega)]
          simp only [Option.map, show Char.ofNat 92 = c from by rw [← h2, Char.ofNat_toNat]]
      · by_cases h3 : c.toNat = 10
        · have he : jsonEscapeChar c = [92, 110] := by simp [jsonEscapeChar, h1, h2, h3]
          rw [he] at hf ⊢
          simp only [List.cons_append, List.nil_append, List.length_cons,
            List.length_append] at hf ⊢
          cases fuel with
          | zero => omega
          | succ f =>
            rw [parseStrF_esc2 f _ (by right; right; right; left; rfl),
              ih f rest (by simp only [List.length_append, List.length_cons]; omega)]
            simp only [Option.map, show Char.ofNat 10 = c from by rw [← h3, Char.ofNat_toNat]]
        · by_cases h4 : c.toNat = 13
          · have he : jsonEscapeChar c = [92, 114] := by simp [jsonEscapeChar, h1, h2, h3, h4]
            rw [he] at hf ⊢
            simp only [List.cons_append, List.nil_append, List.length_cons,
              List.length_append] at hf ⊢
            cases fuel with
            | zero => omega
            | succ f =>
              rw [parseStrF_esc2 f _ (by right; right; right; right; left; rfl),
                ih f rest (by simp only [List.length_append, List.length_cons]; omega)]
              simp only [Option.map,
                show Char.ofNat 13 = c from by rw [← h4, Char.ofNat_toNat]]
          · by_cases h5 : c.toNat = 9
            · have he : jsonEscapeChar c = [92, 116] := by
                simp [jsonEscapeChar, h1, h2, h3, h4, h5]
              rw [he] at hf ⊢
              simp only [List.cons_append, List.nil_append, List.length_cons,
                List.length_append] at hf ⊢
              cases fuel with
              | zero => omega
              | succ f =>
                rw [parseStrF_esc2 f _ (by right; right; right; right; right; left; rfl),
                  ih f rest (by simp only [List.length_append, List.length_cons]; omega)]
                simp only [Option.map,
                  show Char.ofNat 9 = c from by rw [← h5, Char.ofNat_toNat]]
            · by_cases h6 : c.toNat < 32
              · have he : jsonEscapeChar c =
                    [92, 117, 48, 48, hexDigitByte (c.toNat / 16), hexDigitByte (c.toNat % 16)] :=
                  by simp [jsonEscapeChar, h1, h2, h3, h4, h5, h6]
                rw [he] at hf ⊢
                simp only [List.cons_append, List.nil_append, List.length_cons,
                  List.length_append] at hf ⊢
                cases fuel with
                | zero => omega
                | succ f =>
                  rw [parseStrF_u f _ ev0 ev0
                    (hexVal_hexDigitByte (by omega)) (hexVal_hexDigitByte (by omega))
                    (by rw [show ((0 * 16 + 0) * 16 + c.toNat / 16) * 16 + c.toNat % 16 =
                          c.toNat from by omega]
                        exact validScalar_toNat c),
                    ih f rest (by simp only [List.length_append, List.length_cons]; omega)]
                  simp only [Option.map,
                    show ((0 * 16 + 0) * 16 + c.toNat / 16) * 16 + c.toNat % 16 = c.toNat
                      from by omega, Char.ofNat_toNat]
              · by_cases h7 : c.toNat = 60
                · have he : jsonEscapeChar c = [92, 117, 48, 48, 51, 99] := by
                    simp [jsonEscapeChar, h1, h2, h3, h4, h5, h6, h7]
                  rw [he] at hf ⊢
                  simp only [List.cons_append, List.nil_append, List.length_cons,
                    List.length_append] at hf ⊢
                  cases fuel with
                  | zero => omega
                  | succ f =>
                    rw [parseStrF_u f _ ev0 ev0 ev3 evc (by decide),
                      ih f rest (by simp only [List.length_append, List.length_cons]; omega)]
                    simp only [Option.map,
                      show Char.ofNat (((0 * 16 + 0) * 16 + 3) * 16 + 12) = c from by
                        rw [show (((0 * 16 + 0) * 16 + 3) * 16 + 12 : Nat) = 60 from by
                          norm_num, ← h7, Char.ofNat_toNat]]
                · by_cases h8 : c.toNat = 62
                  · have he : jsonEscapeChar c = [92, 117, 48, 48, 51, 101] := by
                      simp [jsonEscapeChar, h1, h2, h3, h4, h5, h6, h7, h8]
                    rw [he] at hf ⊢
                    simp only [List.cons_append, List.nil_append, List.length_cons,
                      List.length_append] at hf ⊢
                    cases fuel with
                    | zero => omega
                    | succ f =>
                      rw [parseStrF_u f _ ev0 ev0 ev3 eve (by decide),
                        ih f rest (by simp only [List.length_append, List.length_cons]; omega)]
                      simp only [Option.map,
                        show Char.ofNat (((0 * 16 + 0) * 16 + 3) * 16 + 14) = c from by
                          rw [show (((0 * 16 + 0) * 16 + 3) * 16 + 14 : Nat) = 62 from by
                            norm_num, ← h8, Char.ofNat_toNat]]
                  · by_cases h9 : c.toNat = 38
                    · have he : jsonEscapeChar c = [92, 117, 48, 48, 50, 54] := by
                        simp [jsonEscapeChar, h1, h2, h3, h4, h5, h6, h7, h8, h9]
                      rw [he] at hf ⊢
                      simp only [List.cons_append, List.nil_append, List.length_cons,
                        List.length_append] at hf ⊢
                      cases fuel with
                      | zero => omega
                      | succ f =>
                        rw [parseStrF_u f _ ev0 ev0 ev2 ev6 (by decide),
                          ih f rest (by
                            simp only [List.length_append, List.length_cons]; omega)]
                        simp only [Option.map,
                          show Char.ofNat (((0 * 16 + 0) * 16 + 2) * 16 + 6) = c from by
                            rw [show (((0 * 16 + 0) * 16 + 2) * 16 + 6 : Nat) = 38 from by
                              norm_num, ← h9, Char.ofNat_toNat]]
                    · by_cases h10 : c.toNat = 8232
                      · have he : jsonEscapeChar c = [92, 117, 50, 48, 50, 56] := by
                          simp [jsonEscapeChar, h1, h2, h3, h4, h5, h6, h7, h8, h9, h10]
                        rw [he] at hf ⊢
                        simp only [List.cons_append, List.nil_append, List.length_cons,
                          List.length_append] at hf ⊢
                        cases fuel with
                        | zero => omega
                        | succ f =>
                          rw [parseStrF_u f _ ev2 ev0 ev2 ev8 (by decide),
                            ih f rest (by
                              simp only [List.length_append, List.length_cons]; omega)]
                          simp only [Option.map,
                            show Char.ofNat (((2 * 16 + 0) * 16 + 2) * 16 + 8) = c from by
                              rw [show (((2 * 16 + 0) * 16 + 2) * 16 + 8 : Nat) = 8232 from by
                                norm_num, ← h10, Char.ofNat_toNat]]
                      · by_cases h11 : c.toNat = 8233
                        · have he : jsonEscapeChar c = [92, 117, 50, 48, 50, 57] := by
                            simp [jsonEscapeChar, h1, h2, h3, h4, h5, h6, h7, h8, h9, h10, h11]
                          rw [he] at hf ⊢
                          simp only [List.cons_append, List.nil_append, List.length_cons,
                            List.length_append] at hf ⊢
                          cases fuel with
                          | zero => omega
                          | succ f =>
                            rw [parseStrF_u f _ ev2 ev0 ev2 ev9 (by decide),
                              ih f rest (by
                                simp only [List.length_append, List.length_cons]; omega)]
                            simp only [Option.map,
                              show Char.ofNat (((2 * 16 + 0) * 16 + 2) * 16 + 9) = c from by
                                rw [show (((2 * 16 + 0) * 16 + 2) * 16 + 9 : Nat) = 8233
                                  from by norm_num, ← h11, Char.ofNat_toNat]]
                        · have he : jsonEscapeChar c = utf8EncodeChar c := by
                            simp [jsonEscapeChar, h1, h2, h3, h4, h5, h6, h7, h8, h9, h10, h11]
                          have hep := utf8EncodeChar_length_pos c
                          rw [he] at hf ⊢
                          simp only [List.length_append, List.length_cons] at hf
                          cases fuel with
                          | zero => omega
                          | succ f =>
                            rw [parseStrF_utf8 c _ f h1 h2 h6,
                              ih f rest (by
                                simp only [List.length_append, List.length_cons]; omega)]
                            simp only [Option.map]

/-- Decimal digits of a natural number (strconv.AppendInt for nonnegative
values, as used by encoding/json for integers). -/
def natToDigits (n : Nat) : Bytes :=
  if n < 10 then [48 + n] else natToDigits (n / 10) ++ [48 + n % 10]
decreasing_by omega

/-- Go encoding/json serialization of an int64: minimal decimal, with a minus
sign for negative values. -/
def intToBytes (i : Int) : Bytes :=
  if i < 0 then 45 :: natToDigits (-i).toNat else natToDigits i.toNat

/-- Greedy decimal-digit scanner with an accumulator. -/
def parseDigits : Bytes → Nat → Nat × Bytes
  | [], acc => (acc, [])
  | b :: t, acc =>
    if 48 ≤ b ∧ b ≤ 57 then parseDigits t (acc * 10 + (b - 48)) else (acc, b :: t)

/-- Parse a nonnegative decimal integer (at least one digit). -/
def parseIntNat (l : Bytes) : Option (Nat × Bytes) :=
  match l with
  | [] => none
  | b :: t => if 48 ≤ b ∧ b ≤ 57 then some (parseDigits (b :: t) 0) else none

/-- Parse a JSON integer: an optional minus sign followed by digits. -/
def parseInt (l : Bytes) : Option (Int × Bytes) :=
  match l with
  | [] => none
  | b :: r =>
    if b = 45 then (parseIntNat r).map (fun p => (-(p.1 : Int), p.2))
    else (parseIntNat (b :: r)).map (fun p => ((p.1 : Int), p.2))

lemma natToDigits_digits (n : Nat) : ∀ b ∈ natToDigits n, 48 ≤ b ∧ b ≤ 57 := by
  induction n using natToDigits.induct with
  | case1 n hn =>
    rw [natToDigits, if_pos hn]
    intro b hb
    simp at hb
    omega
  | case2 n hn ih =>
    rw [natToDigits, if_neg hn]
    intro b hb
    rcases List.mem_append.mp hb with h | h
    · exact ih b h
    · simp at h
      omega

lemma natToDigits_ne_nil (n : Nat) : natToDigits n ≠ [] := by
  rw [natToDigits]
  split <;> simp

lemma parseDigits_append {a : Bytes} (ha : ∀ b ∈ a, 48 ≤ b ∧ b ≤ 57) :
    ∀ (rest : Bytes) (acc : Nat),
    parseDigits (a ++ rest) acc = parseDigits rest (a.foldl (fun x b => x * 10 + (b - 48)) acc) := by
  induction a with
  | nil => intro rest acc; simp
  | cons b t ih =>
    intro rest acc
    have hb := ha b (by simp)
    simp only [List.cons_append, parseDigits, if_pos hb, List.foldl_cons]
    exact ih (fun x hx => ha x (by simp [hx])) rest _

lemma foldl_natToDigits (n : Nat) : ∀ acc : Nat,
    (natToDigits n).foldl (fun x b => x * 10 + (b - 48)) acc =
      acc * 10 ^ (natToDigits n).length + n := by
  induction n using natToDigits.induct with
  | case1 n hn =>
    intro acc
    rw [natToDigits, if_pos hn]
    simp only [List.foldl_cons, List.foldl_nil, List.length_cons, List.length_nil, pow_one]
    omega
  | case2 n hn ih =>
    intro acc
    rw [natToDigits, if_neg hn]
    rw [List.foldl_append, ih acc]
    simp only [List.foldl_cons, List.foldl_nil, List.length_append, List.length_cons,
      List.length_nil]
    rw [pow_succ]
    have : 48 + n % 10 - 48 = n % 10 := by omega
    rw [this]
    have hn10 : n / 10 * 10 + n % 10 = n := by omega
    ring_nf
    omega

lemma parseDigits_stop {rest : Bytes} (acc : Nat)
    (hr : rest = [] ∨ ∃ b t, rest = b :: t ∧ ¬(48 ≤ b ∧ b ≤ 57)) :
    parseDigits rest acc = (acc, rest) := by
  rcases hr with h | ⟨b, t, h, hb⟩
  · subst h; rfl
  · subst h
    simp only [parseDigits, if_neg hb]

lemma parseIntNat_natToDigits (n : Nat) (rest : Bytes)
    (hr : rest = [] ∨ ∃ b t, rest = b :: t ∧ ¬(48 ≤ b ∧ b ≤ 57)) :
    parseIntNat (natToDigits n ++ rest) = some (n, rest) := by
  obtain ⟨d, t, hd⟩ : ∃ d t, natToDigits n = d :: t := by
    cases h : natToDigits n with
    | nil => exact absurd h (natToDigits_ne_nil n)
    | cons d t => exact ⟨d, t, rfl⟩
  have hdig : 48 ≤ d ∧ d ≤ 57 := natToDigits_digits n d (by rw [hd]; simp)
  rw [hd]
  simp only [List.cons_append, parseIntNat, if_pos hdig]
  rw [show (d :: (t ++ rest)) = (d :: t) ++ rest from rfl, ← hd]
  rw [parseDigits_append (natToDigits_digits n) rest 0]
  rw [parseDigits_stop _ hr, foldl_natToDigits]
  simp

lemma parseInt_intToBytes (i : Int) (rest : Bytes)
    (hr : rest = [] ∨ ∃ b t, rest = b :: t ∧ ¬(48 ≤ b ∧ b ≤ 57)) :
    parseInt (intToBytes i ++ rest) = some (i, rest) := by
  by_cases hi : i < 0
  · rw [intToBytes, if_pos hi]
    simp only [List.cons_append]
    have hstep : parseInt (45 :: (natToDigits (-i).toNat ++ rest)) =
        (parseIntNat (natToDigits (-i).toNat ++ rest)).map (fun p => (-(p.1 : Int), p.2)) := by
      simp [parseInt]
    rw [hstep, parseIntNat_natToDigits _ rest hr]
    simp only [Option.map, Option.some.injEq, Prod.mk.injEq]
    exact ⟨by omega, trivial⟩
  · rw [intToBytes, if_neg hi]
    obtain ⟨d, t, hd⟩ : ∃ d t, natToDigits i.toNat = d :: t := by
      cases h : natToDigits i.toNat with
      | nil => exact absurd h (natToDigits_ne_nil _)
      | cons d t => exact ⟨d, t, rfl⟩
    have hdig : 48 ≤ d ∧ d ≤ 57 := natToDigits_digits _ d (by rw [hd]; simp)
    rw [hd, List.cons_append]
    have hstep : parseInt (d :: (t ++ rest)) =
        (parseIntNat (d :: (t ++ rest))).map (fun p => ((p.1 : Int), p.2)) := by
      simp [parseInt, show ¬d = 45 from by omega]
    rw [hstep, ← List.cons_append, ← hd, parseIntNat_natToDigits _ rest hr]
    simp only [Option.map, Option.some.injEq, Prod.mk.injEq]
    exact ⟨by omega, trivial⟩

/-- Consume an expected byte sequence from the head of the input. -/
def expectBytes : Bytes → Bytes → Option Bytes
  | [], l => some l
  | e :: es, l =>
    match l with
    | b :: t => if b = e then expectBytes es t else none
    | [] => none

/-- `json.Marshal` of a `TokenClaims` value: exactly the wire shape
`\x7b"cn":<escaped string>,"iat":<int>,"exp":<int>\x7d` with the fields in
struct order, Go string escaping and minimal decimal integers. -/
def marshalClaims (c : TokenClaims) : Bytes :=
  [123, 34, 99, 110, 34, 58, 34] ++ jsonEscape c.cn ++ [34, 44, 34, 105, 97, 116, 34, 58] ++
    intToBytes c.iat ++ [44, 34, 101, 120, 112, 34, 58] ++ intToBytes c.exp ++ [125]

/-- `json.Unmarshal` into `TokenClaims`, specialized to the wire shape that
`marshalClaims` produces (the only shape this system ever has to parse back). -/
def unmarshalClaims (l : Bytes) : Option TokenClaims :=
  match expectBytes [123, 34, 99, 110, 34, 58, 34] l with
  | none => none
  | some r0 =>
    match parseStr r0 with
    | none => none
    | some (cn, r1) =>
      match expectBytes [44, 34, 105, 97, 116, 34, 58] r1 with
      | none => none
      | some r2 =>
        match parseInt r2 with
        | none => none
        | some (iat, r3) =>
          match expectBytes [44, 34, 101, 120, 112, 34, 58] r3 with
          | none => none
          | some r4 =>
            match parseInt r4 with
            | none => none
            | some (e, r5) => if r5 = [125] then some ⟨cn, iat, e⟩ else none

lemma parseStr_escape (cs : List Char) (rest : Bytes) :
    parseStr (jsonEscape cs ++ 34 :: rest) = some (cs, rest) :=
  parseStrF_escape cs _ rest le_rfl

lemma expectBytes_pre (pre : Bytes) : ∀ rest : Bytes, expectBytes pre (pre ++ rest) = some rest := by
  induction pre with
  | nil => intro rest; simp [expectBytes]
  | cons e es ih => intro rest; simp [expectBytes, ih]

/-- Round trip: unmarshalling a marshalled `TokenClaims` recovers it exactly. -/
lemma unmarshalClaims_marshalClaims (c : TokenClaims) :
    unmarshalClaims (marshalClaims c) = some c := by
  have hIat := parseInt_intToBytes c.iat
    (44 :: 34 :: 101 :: 120 :: 112 :: 34 :: 58 :: (intToBytes c.exp ++ [125]))
    (Or.inr ⟨44, _, rfl, by omega⟩)
  have hExp := parseInt_intToBytes c.exp [125] (Or.inr ⟨125, [], rfl, by omega⟩)
  unfold unmarshalClaims marshalClaims
  simp only [List.append_assoc, List.cons_append, List.nil_append]
  simp [expectBytes, parseStr_escape, hIat, hExp]

/-! ## base64url (encoding/base64 RawURLEncoding: URL alphabet, no padding) -/

/-- Character of the base64url alphabet for a 6-bit value. -/
def b64char (n : Nat) : Char :=
  if n < 26 then Char.ofNat (65 + n)
  else if n < 52 then Char.ofNat (97 + (n - 26))
  else if n < 62 then Char.ofNat (48 + (n - 52))
  else if n = 62 then Char.ofNat 45
  else Char.ofNat 95

/-- 6-bit value of a base64url alphabet character. -/
def b64val (c : Char) : Option Nat :=
  if 65 ≤ c.toNat ∧ c.toNat ≤ 90 then some (c.toNat - 65)
  else if 97 ≤ c.toNat ∧ c.toNat ≤ 122 then some (26 + (c.toNat - 97))
  else if 48 ≤ c.toNat ∧ c.toNat ≤ 57 then some (52 + (c.toNat - 48))
  else if c.toNat = 45 then some 62
  else if c.toNat = 95 then some 63
  else none

/-- `base64.RawURLEncoding.EncodeToString`: groups of three bytes become four
alphabet characters; a final group of one or two bytes becomes two or three
characters (no padding). -/
def encodeB64 : Bytes → List Char
  | [] => []
  | [a] => [b64char (a / 4), b64char (a % 4 * 16)]
  | [a, b] => [b64char (a / 4), b64char (a % 4 * 16 + b / 16), b64char (b % 16 * 4)]
  | a :: b :: d :: t =>
    b64char (a / 4) :: b64char (a % 4 * 16 + b / 16) :: b64char (b % 16 * 4 + d / 64) ::
      b64char (d % 64) :: encodeB64 t

/-- Reassemble bytes from 6-bit groups: four sextets give three bytes; a
trailing group of two or three sextets gives one or two bytes, dropping the
unused low bits (Go's non-strict decoder ignores them); a single trailing
sextet is an error. -/
def decodeSextets : List Nat → Option Bytes
  | [] => some []
  | [_] => none
  | [x, y] => some [x * 4 + y / 16]
  | [x, y, z] => some [x * 4 + y / 16, y % 16 * 16 + z / 4]
  | x :: y :: z :: w :: t =>
    (decodeSextets t).map
      (fun r => (x * 4 + y / 16) :: (y % 16 * 16 + z / 4) :: (z % 4 * 64 + w) :: r)

/-- Map every character to its 6-bit value; an unknown character is an error. -/
def sextetsOf : List Char → Option (List Nat)
  | [] => some []
  | c :: t =>
    match b64val c, sextetsOf t with
    | some v, some vs => some (v :: vs)
    | _, _ => none

/-- `base64.RawURLEncoding.DecodeString`: carriage returns and newlines are
ignored; any other character outside the alphabet is an error; then the
sextets are reassembled into bytes. -/
def decodeB64 (s : List Char) : Option Bytes :=
  match sextetsOf (s.filter (fun c => !(c.toNat == 13 || c.toNat == 10))) with
  | none => none
  | some sx => decodeSextets sx

lemma b64_alphabet_facts :
    ∀ n ∈ List.range 64, b64val (b64char n) = some n ∧ (b64char n).toNat ≠ 46 ∧
      (b64char n).toNat ≠ 13 ∧ (b64char n).toNat ≠ 10 := by
  decide

lemma b64val_b64char {n : Nat} (h : n < 64) : b64val (b64char n) = some n :=
  (b64_alphabet_facts n (List.mem_range.mpr h)).1

lemma b64char_not_special {n : Nat} (h : n < 64) :
    (b64char n).toNat ≠ 46 ∧ (b64char n).toNat ≠ 13 ∧ (b64char n).toNat ≠ 10 :=
  (b64_alphabet_facts n (List.mem_range.mpr h)).2

/-- Every character of a base64url encoding of bytes is an alphabet character
for some 6-bit value. -/
lemma encodeB64_chars {bs : Bytes} (hb : ∀ x ∈ bs, x < 256) :
    ∀ c ∈ encodeB64 bs, ∃ n, n < 64 ∧ c = b64char n := by
  induction bs using encodeB64.induct with
  | case1 => simp [encodeB64]
  | case2 a =>
    have ha : a < 256 := hb a (by simp)
    intro c hc
    simp only [encodeB64, List.mem_cons, List.not_mem_nil, or_false] at hc
    rcases hc with h | h
    · exact ⟨a / 4, by omega, h⟩
    · exact ⟨a % 4 * 16, by omega, h⟩
  | case3 a b =>
    have ha : a < 256 := hb a (by simp)
    have hbb : b < 256 := hb b (by simp)
    intro c hc
    simp only [encodeB64, List.mem_cons, List.not_mem_nil, or_false] at hc
    rcases hc with h | h | h
    · exact ⟨a / 4, by omega, h⟩
    · exact ⟨a % 4 * 16 + b / 16, by omega, h⟩
    · exact ⟨b % 16 * 4, by omega, h⟩
  | case4 a b d t ih =>
    have ha : a < 256 := hb a (by simp)
    have hbb : b < 256 := hb b (by simp)
    have hd : d < 256 := hb d (by simp)
    intro c hc
    simp only [encodeB64, List.mem_cons] at hc
    rcases hc with h | h | h | h | h
    · exact ⟨a / 4, by omega, h⟩
    · exact ⟨a % 4 * 16 + b / 16, by omega, h⟩
    · exact ⟨b % 16 * 4 + d / 64, by omega, h⟩
    · exact ⟨d % 64, by omega, h⟩
    · exact ih (fun x hx => hb x (by simp [hx])) c h

/-- The base64url encoding of a byte list contains no carriage return or
newline, so Go's decoder-side filtering leaves it unchanged. -/
lemma encodeB64_filter {bs : Bytes} (hb : ∀ x ∈ bs, x < 256) :
    (encodeB64 bs).filter (fun c => !(c.toNat == 13 || c.toNat == 10)) = encodeB64 bs := by
  apply List.filter_eq_self.mpr
  intro c hc
  obtain ⟨n, hn, hcn⟩ := encodeB64_chars hb c hc
  obtain ⟨_, h13, h10⟩ := b64char_not_special hn
  subst hcn
  simp [h13, h10]

/-- base64url decoding inverts base64url encoding on byte lists. -/
lemma decodeB64_encodeB64 {bs : Bytes} (hb : ∀ x ∈ bs, x < 256) :
    decodeB64 (encodeB64 bs) = some bs := by
  induction bs using encodeB64.induct with
  | case1 => rfl
  | case2 a =>
    have ha : a < 256 := hb a (by simp)
    have e1 : b64val (b64char (a / 4)) = some (a / 4) := b64val_b64char (by omega)
    have e2 : b64val (b64char (a % 4 * 16)) = some (a % 4 * 16) := b64val_b64char (by omega)
    unfold decodeB64
    rw [encodeB64_filter hb]
    simp only [encodeB64, sextetsOf, e1, e2]
    simp only [decodeSextets, Option.some.injEq]
    refine List.cons_eq_cons.mpr ⟨by omega, rfl⟩
  | case3 a b =>
    have ha : a < 256 := hb a (by simp)
    have hbb : b < 256 := hb b (by simp)
    have e1 : b64val (b64char (a / 4)) = some (a / 4) := b64val_b64char (by omega)
    have e2 : b64val (b64char (a % 4 * 16 + b / 16)) = some (a % 4 * 16 + b / 16) :=
      b64val_b64char (by omega)
    have e3 : b64val (b64char (b % 16 * 4)) = some (b % 16 * 4) := b64val_b64char (by omega)
    unfold decodeB64
    rw [encodeB64_filter hb]
    simp only [encodeB64, sextetsOf, e1, e2, e3]
    simp only [decodeSextets, Option.some.injEq]
    refine List.cons_eq_cons.mpr ⟨by omega, ?_⟩
    refine List.cons_eq_cons.mpr ⟨by omega, rfl⟩
  | case4 a b d t ih =>
    have ha : a < 256 := hb a (by simp)
    have hbb : b < 256 := hb b (by simp)
    have hd : d < 256 := hb d (by simp)
    have hbt : ∀ x ∈ t, x < 256 := fun x hx => hb x (by simp [hx])
    have iht := ih hbt
    have e1 : b64val (b64char (a / 4)) = some (a / 4) := b64val_b64char (by omega)
    have e2 : b64val (b64char (a % 4 * 16 + b / 16)) = some (a % 4 * 16 + b / 16) :=
      b64val_b64char (by omega)
    have e3 : b64val (b64char (b % 16 * 4 + d / 64)) = some (b % 16 * 4 + d / 64) :=
      b64val_b64char (by omega)
    have e4 : b64val (b64char (d % 64)) = some (d % 64) := b64val_b64char (by omega)
    unfold decodeB64 at iht ⊢
    rw [encodeB64_filter hb]
    rw [encodeB64_filter hbt] at iht
    simp only [encodeB64]
    cases hmt : sextetsOf (encodeB64 t) with
    | none =>
      rw [hmt] at iht
      simp at iht
    | some sx =>
      rw [hmt] at iht
      have iht2 : decodeSextets sx = some t := iht
      simp only [sextetsOf, e1, e2, e3, e4, hmt]
      simp only [decodeSextets]
      rw [iht2]
      simp only [Option.map_some', Option.some.injEq]
      refine List.cons_eq_cons.mpr ⟨by omega, ?_⟩
      refine List.cons_eq_cons.mpr ⟨by omega, ?_⟩
      refine List.cons_eq_cons.mpr ⟨by omega, rfl⟩

/-! ## SHA-256 and HMAC (crypto/sha256, crypto/hmac)

32-bit words are `Nat` values kept below 2^32 by explicit `% 4294967296`
after every addition; rotations and logical operations use the kernel
bitwise primitives.
-/

/-- Right rotation of a 32-bit word by `n` bits. -/
def rotr (n w : Nat) : Nat := ((w >>> n) ||| (w <<< (32 - n))) % 4294967296

/-- The SHA-256 round constants (fractional parts of the cube roots of the
first 64 primes). -/
def sha256K : List Nat :=
  [1116352408, 1899447441, 3049323471, 3921009573, 961987163, 1508970993, 2453635748,
   2870763221, 3624381080, 310598401, 607225278, 1426881987, 1925078388, 2162078206,
   2614888103, 3248222580, 3835390401, 4022224774, 264347078, 604807628, 770255983,
   1249150122, 1555081692, 1996064986, 2554220882, 2821834349, 2952996808, 3210313671,
   3336571891, 3584528711, 113926993, 338241895, 666307205, 773529912, 1294757372,
   1396182291, 1695183700, 1986661051, 2177026350, 2456956037, 2730485921, 2820302411,
   3259730800, 3345764771, 3516065817, 3600352804, 4094571909, 275423344, 430227734,
   506948616, 659060556, 883997877, 958139571, 1322822218, 1537002063, 1747873779,
   1955562222, 2024104815, 2227730452, 2361852424, 2428436474, 2756734187, 3204031479,
   3329325298]

/-- Working state of the SHA-256 compression function. -/
structure Sha256State where
  a : Nat
  b : Nat
  c : Nat
  d : Nat
  e : Nat
  f : Nat
  g : Nat
  h : Nat

/-- Initial SHA-256 hash state (fractional parts of the square roots of the
first 8 primes). -/
def sha256Init : Sha256State :=
  ⟨1779033703, 3144134277, 1013904242, 2773480762, 1359893119, 2600822924, 528734635,
   1541459225⟩

/-- SHA-256 padding: append 0x80, zero bytes to 56 mod 64, then the bit length
as eight big-endian bytes. -/
def sha256Pad (msg : Bytes) : Bytes :=
  msg ++ [128] ++ List.replicate ((119 - msg.length % 64) % 64) 0 ++
    [msg.length * 8 / 72057594037927936 % 256, msg.length * 8 / 281474976710656 % 256,
     msg.length * 8 / 1099511627776 % 256, msg.length * 8 / 4294967296 % 256,
     msg.length * 8 / 16777216 % 256, msg.length * 8 / 65536 % 256,
     msg.length * 8 / 256 % 256, msg.length * 8 % 256]

/-- Big-endian 32-bit words from bytes. -/
def toWords : Bytes → List Nat
  | b0 :: b1 :: b2 :: b3 :: t => (((b0 * 256 + b1) * 256 + b2) * 256 + b3) :: toWords t
  | _ => []

/-- Split the padded message into 64-byte blocks. -/
def toBlocks (l : Bytes) : List Bytes :=
  match l with
  | [] => []
  | b :: t => (b :: t).take 64 :: toBlocks ((b :: t).drop 64)
termination_by l.length
decreasing_by
  simp [List.length_drop]
  omega

/-- Extend 16 message words to the 64-word SHA-256 message schedule. -/
def sha256Extend (w : List Nat) : List Nat :=
  (List.range 48).foldl
    (fun acc i =>
      let w1 := acc.getD (i + 1) 0
      let w14 := acc.getD (i + 14) 0
      let s0 := rotr 7 w1 ^^^ rotr 18 w1 ^^^ (w1 >>> 3)
      let s1 := rotr 17 w14 ^^^ rotr 19 w14 ^^^ (w14 >>> 10)
      acc ++ [(acc.getD i 0 + s0 + acc.getD (i + 9) 0 + s1) % 4294967296])
    w

/-- One SHA-256 block compression. -/
def sha256Compress (st : Sha256State) (block : Bytes) : Sha256State :=
  let w := sha256Extend (toWords block)
  let fin := (List.range 64).foldl
    (fun s i =>
      let s1 := rotr 6 s.e ^^^ rotr 11 s.e ^^^ rotr 25 s.e
      let ch := (s.e &&& s.f) ^^^ ((4294967295 ^^^ s.e) &&& s.g)
      let t1 := (s.h + s1 + ch + sha256K.getD i 0 + w.getD i 0) % 4294967296
      let s0 := rotr 2 s.a ^^^ rotr 13 s.a ^^^ rotr 22 s.a
      let maj := (s.a &&& s.b) ^^^ (s.a &&& s.c) ^^^ (s.b &&& s.c)
      let t2 := (s0 + maj) % 4294967296
      ⟨(t1 + t2) % 4294967296, s.a, s.b, s.c, (s.d + t1) % 4294967296, s.e, s.f, s.g⟩)
    st
  ⟨(st.a + fin.a) % 4294967296, (st.b + fin.b) % 4294967296, (st.c + fin.c) % 4294967296,
   (st.d + fin.d) % 4294967296, (st.e + fin.e) % 4294967296, (st.f + fin.f) % 4294967296,
   (st.g + fin.g) % 4294967296, (st.h + fin.h) % 4294967296⟩

/-- Big-endian bytes of a 32-bit word. -/
def wordBytes (w : Nat) : Bytes :=
  [w / 16777216 % 256, w / 65536 % 256, w / 256 % 256, w % 256]

/-- SHA-256 digest of a byte string (crypto/sha256). -/
def sha256 (msg : Bytes) : Bytes :=
  let fin := (toBlocks (sha256Pad msg)).foldl sha256Compress sha256Init
  wordBytes fin.a ++ wordBytes fin.b ++ wordBytes fin.c ++ wordBytes fin.d ++
    wordBytes fin.e ++ wordBytes fin.f ++ wordBytes fin.g ++ wordBytes fin.h

/-- `computeHMAC` from token.go: HMAC-SHA256 of `data` under key `secret`
(crypto/hmac with a 64-byte block size). -/
def computeHMAC (data secret : Bytes) : Bytes :=
  let k0 := if 64 < secret.length then sha256 secret else secret
  let key := k0 ++ List.replicate (64 - k0.length) 0
  sha256 ((key.map (fun b => b ^^^ 92)) ++ sha256 ((key.map (fun b => b ^^^ 54)) ++ data))

lemma sha256_length (msg : Bytes) : (sha256 msg).length = 32 := by
  simp [sha256, wordBytes]

lemma sha256_bytes_lt (msg : Bytes) : ∀ x ∈ sha256 msg, x < 256 := by
  intro x hx
  simp only [sha256, wordBytes, List.mem_append, List.mem_cons, List.not_mem_nil,
    or_false] at hx
  rcases hx with ((((((h | h) | h) | h) | h) | h) | h) | h <;>
    rcases h with h | h | h | h <;> omega

lemma computeHMAC_length (data secret : Bytes) : (computeHMAC data secret).length = 32 :=
  sha256_length _

lemma computeHMAC_bytes_lt (data secret : Bytes) : ∀ x ∈ computeHMAC data secret, x < 256 :=
  sha256_bytes_lt _

/-! ## Token codec (token.go) -/

/-- The sentinel errors of token.go (`ErrInvalidToken`, `ErrInvalidSignature`,
`ErrTokenExpired`). `ErrTokenRevoked` is produced by the middleware's injected
validator, not by `ValidateToken`. -/
inductive TokenError where
  | invalidToken
  | invalidSignature
  | tokenExpired
deriving DecidableEq

/-- The `Error()` strings of the sentinel errors. -/
def errMessage : TokenError → List Char
  | .invalidToken => ("invalid token format").data
  | .invalidSignature => ("invalid token signature").data
  | .tokenExpired => ("token has expired").data

/-- `hmac.Equal` = `subtle.ConstantTimeCompare`: false on differing lengths,
otherwise the OR-accumulation of the bytewise XORs must be zero. -/
def hmacEqual (x y : Bytes) : Bool :=
  if x.length = y.length
  then (List.zipWith (fun a b => a ^^^ b) x y).foldl (fun a b => a ||| b) 0 == 0
  else false

lemma lor_eq_zero {x y : Nat} (h : x ||| y = 0) : x = 0 ∧ y = 0 := by
  constructor
  · refine Nat.eq_of_testBit_eq fun k => ?_
    have h2 := congrArg (fun t => Nat.testBit t k) h
    simp [Nat.testBit_lor] at h2
    simp [h2.1]
  · refine Nat.eq_of_testBit_eq fun k => ?_
    have h2 := congrArg (fun t => Nat.testBit t k) h
    simp [Nat.testBit_lor] at h2
    simp [h2.2]

lemma foldl_lor_zero (l : List Nat) : ∀ acc : Nat,
    (l.foldl (fun a b => a ||| b) acc = 0 ↔ acc = 0 ∧ ∀ z ∈ l, z = 0) := by
  induction l with
  | nil => intro acc; simp
  | cons z t ih =>
    intro acc
    simp only [List.foldl_cons, ih (acc ||| z), List.mem_cons]
    constructor
    · rintro ⟨haz, hall⟩
      obtain ⟨ha, hz⟩ := lor_eq_zero haz
      refine ⟨ha, fun w hw => ?_⟩
      rcases hw with h | h
      · omega
      · exact hall w h
    · rintro ⟨ha, hall⟩
      subst ha
      have hz : z = 0 := hall z (Or.inl rfl)
      subst hz
      exact ⟨by simp, fun w hw => hall w (Or.inr hw)⟩

lemma hmacEqual_self (x : Bytes) : hmacEqual x x = true := by
  unfold hmacEqual
  rw [if_pos rfl]
  simp only [beq_iff_eq]
  rw [foldl_lor_zero]
  refine ⟨rfl, fun z hz => ?_⟩
  induction x with
  | nil => simp at hz
  | cons a t ih =>
    simp only [List.zipWith_cons_cons, List.mem_cons] at hz
    rcases hz with h | h
    · simp [h]
    · exact ih h

lemma zipWith_xor_zero_eq {x : Bytes} : ∀ {y : Bytes}, x.length = y.length →
    (∀ z ∈ List.zipWith (fun a b => a ^^^ b) x y, z = 0) → x = y := by
  induction x with
  | nil =>
    intro y hlen _
    cases y with
    | nil => rfl
    | cons b u => simp at hlen
  | cons a t ih =>
    intro y hlen hall
    cases y with
    | nil => simp at hlen
    | cons b u =>
      have hab : a ^^^ b = 0 := hall _ (by simp)
      have hr : t = u := ih (by simpa using hlen) (fun z hz => hall z (by simp [hz]))
      rw [hr, Nat.xor_eq_zero.mp hab]

lemma hmacEqual_eq {x y : Bytes} (h : hmacEqual x y = true) : x = y := by
  unfold hmacEqual at h
  split at h
  · rename_i hlen
    simp only [beq_iff_eq] at h
    rw [foldl_lor_zero] at h
    exact zipWith_xor_zero_eq hlen h.2
  · exact absurd h (by simp)

/-- `strings.Split(s, ".")` helper: first segment and remaining segments. -/
def splitGo : List Char → List Char × List (List Char)
  | [] => ([], [])
  | c :: t =>
    if c = Char.ofNat 46 then ([], (splitGo t).1 :: (splitGo t).2)
    else (c :: (splitGo t).1, (splitGo t).2)

/-- `strings.Split(s, ".")`. -/
def splitOnDot (s : List Char) : List (List Char) := (splitGo s).1 :: (splitGo s).2

lemma splitGo_no_dot {a : List Char} (h : ∀ c ∈ a, c ≠ Char.ofNat 46) : splitGo a = (a, []) := by
  induction a with
  | nil => rfl
  | cons c t ih =>
    simp only [splitGo, if_neg (h c (by simp)), ih (fun x hx => h x (by simp [hx]))]

lemma splitOnDot_two {a b : List Char} (ha : ∀ c ∈ a, c ≠ Char.ofNat 46)
    (hb : ∀ c ∈ b, c ≠ Char.ofNat 46) :
    splitOnDot (a ++ Char.ofNat 46 :: b) = [a, b] := by
  have hgo : splitGo (a ++ Char.ofNat 46 :: b) = (a, [b]) := by
    induction a with
    | nil =>
      rw [List.nil_append]
      simp [splitGo, splitGo_no_dot hb]
    | cons c t ih =>
      rw [List.cons_append]
      simp only [splitGo, if_neg (ha c (by simp)),
        ih (fun x hx => ha x (by simp [hx]))]
  simp [splitOnDot, hgo]

/-- `time.Time.Unix` is monotone. -/
lemma unixSec_mono {s t : Int} (h : s ≤ t) : unixSec s ≤ unixSec t := by
  unfold unixSec
  omega

/-- `json.Marshal` applied to `TokenClaims`: marshalling a struct of string
and integer fields cannot fail, so the error branch is never taken. -/
def jsonMarshalClaims (c : TokenClaims) : Except (List Char) Bytes := .ok (marshalClaims c)

/-- `GenerateToken` from token.go: build claims with `iat = now.Unix()` and
`exp = (now + expiresIn).Unix()`, marshal them, and return
`base64url(payload) ++ "." ++ base64url(HMAC(payload, secret))` together with
the expiry instant. -/
def generateToken (cn : List Char) (expiresIn : Int) (secret : Bytes) (now : Int) :
    Except (List Char) (List Char × Int) :=
  match jsonMarshalClaims ⟨cn, unixSec now, unixSec (now + expiresIn)⟩ with
  | .error e => .error e
  | .ok payload =>
    .ok (encodeB64 payload ++ Char.ofNat 46 :: encodeB64 (computeHMAC payload secret),
      now + expiresIn)

/-- `ValidateToken` from token.go: split on the dot, reject anything that is
not exactly two base64url segments, compare the MAC in constant time, then
unmarshal the claims and check expiry. -/
def validateToken (tokenString : List Char) (secret : Bytes) (now : Int) :
    Except TokenError TokenClaims :=
  match splitOnDot tokenString with
  | [p, sg] =>
    match decodeB64 p with
    | none => .error .invalidToken
    | some payload =>
      match decodeB64 sg with
      | none => .error .invalidToken
      | some sig =>
        if hmacEqual sig (computeHMAC payload secret) then
          match unmarshalClaims payload with
          | none => .error .invalidToken
          | some claims =>
            if unixSec now > claims.exp then .error .tokenExpired else .ok claims
        else .error .invalidSignature
  | _ => .error .invalidToken

lemma hexDigitByte_lt {m : Nat} (hm : m < 16) : hexDigitByte m < 256 := by
  unfold hexDigitByte
  split <;> omega

lemma utf8EncodeChar_bytes_lt (c : Char) : ∀ x ∈ utf8EncodeChar c, x < 256 := by
  have hv := char_toNat_valid c
  unfold utf8EncodeChar
  split_ifs <;> intro x hx <;> simp at hx <;> omega

lemma jsonEscapeChar_bytes_lt (c : Char) : ∀ x ∈ jsonEscapeChar c, x < 256 := by
  by_cases h1 : c.toNat = 34
  · rw [show jsonEscapeChar c = [92, 34] from by simp [jsonEscapeChar, h1]]
    intro x hx
    simp at hx
    omega
  · by_cases h2 : c.toNat = 92
    · rw [show jsonEscapeChar c = [92, 92] from by simp [jsonEscapeChar, h1, h2]]
      intro x hx
      simp at hx
      omega
    · by_cases h3 : c.toNat = 10
      · rw [show jsonEscapeChar c = [92, 110] from by simp [jsonEscapeChar, h1, h2, h3]]
        intro x hx
        simp at hx
        omega
      · by_cases h4 : c.toNat = 13
        · rw [show jsonEscapeChar c = [92, 114] from by simp [jsonEscapeChar, h1, h2, h3, h4]]
          intro x hx
          simp at hx
          omega
        · by_cases h5 : c.toNat = 9
          · rw [show jsonEscapeChar c = [92, 116] from by
              simp [jsonEscapeChar, h1, h2, h3, h4, h5]]
            intro x hx
            simp at hx
            omega
          · by_cases h6 : c.toNat < 32
            · rw [show jsonEscapeChar c =
                  [92, 117, 48, 48, hexDigitByte (c.toNat / 16), hexDigitByte (c.toNat % 16)]
                  from by simp [jsonEscapeChar, h1, h2, h3, h4, h5, h6]]
              intro x hx
              simp only [List.mem_cons, List.not_mem_nil, or_false] at hx
              rcases hx with h | h | h | h | h | h
              · omega
              · omega
              · omega
              · omega
              · rw [h]
                exact hexDigitByte_lt (by omega)
              · rw [h]
                exact hexDigitByte_lt (by omega)
            · by_cases h7 : c.toNat = 60
              · rw [show jsonEscapeChar c = [92, 117, 48, 48, 51, 99] from by
                  simp [jsonEscapeChar, h1, h2, h3, h4, h5, h6, h7]]
                intro x hx
                simp at hx
                omega
              · by_cases h8 : c.toNat = 62
                · rw [show jsonEscapeChar c = [92, 117, 48, 48, 51, 101] from by
                    simp [jsonEscapeChar, h1, h2, h3, h4, h5, h6, h7, h8]]
                  intro x hx
                  simp at hx
                  omega
                · by_cases h9 : c.toNat = 38
                  · rw [show jsonEscapeChar c = [92, 117, 48, 48, 50, 54] from by
                      simp [jsonEscapeChar, h1, h2, h3, h4, h5, h6, h7, h8, h9]]
                    intro x hx
                    simp at hx
                    omega
                  · by_cases h10 : c.toNat = 8232
                    · rw [show jsonEscapeChar c = [92, 117, 50, 48, 50, 56] from by
                        simp [jsonEscapeChar, h1, h2, h3, h4, h5, h6, h7, h8, h9, h10]]
                      intro x hx
                      simp at hx
                      omega
                    · by_cases h11 : c.toNat = 8233
                      · rw [show jsonEscapeChar c = [92, 117, 50, 48, 50, 57] from by
                          simp [jsonEscapeChar, h1, h2, h3, h4, h5, h6, h7, h8, h9, h10, h11]]
                        intro x hx
                        simp at hx
                        omega
                      · rw [show jsonEscapeChar c = utf8EncodeChar c from by
                          simp [jsonEscapeChar, h1, h2, h3, h4, h5, h6, h7, h8, h9, h10, h11]]
                        exact utf8EncodeChar_bytes_lt c

lemma jsonEscape_bytes_lt (cs : List Char) : ∀ x ∈ jsonEscape cs, x < 256 := by
  induction cs with
  | nil => simp [jsonEscape]
  | cons c t ih =>
    intro x hx
    simp only [jsonEscape, List.mem_append] at hx
    rcases hx with h | h
    · exact jsonEscapeChar_bytes_lt c x h
    · exact ih x h

lemma intToBytes_bytes_lt (i : Int) : ∀ x ∈ intToBytes i, x < 256 := by
  intro x hx
  unfold intToBytes at hx
  split at hx
  · simp only [List.mem_cons] at hx
    rcases hx with h | h
    · omega
    · have := natToDigits_digits _ x h
      omega
  · have := natToDigits_digits _ x hx
    omega

lemma marshalClaims_bytes_lt (c : TokenClaims) : ∀ x ∈ marshalClaims c, x < 256 := by
  intro x hx
  unfold marshalClaims at hx
  simp only [List.mem_append, List.mem_cons, List.not_mem_nil, or_false] at hx
  rcases hx with ((((((h | h) | h) | h) | h) | h) | h)
  · omega
  · exact jsonEscape_bytes_lt _ x h
  · omega
  · exact intToBytes_bytes_lt _ x h
  · omega
  · exact intToBytes_bytes_lt _ x h
  · omega

lemma encodeB64_no_dot {bs : Bytes} (hb : ∀ x ∈ bs, x < 256) :
    ∀ c ∈ encodeB64 bs, c ≠ Char.ofNat 46 := by
  intro c hc
  obtain ⟨n, hn, hcn⟩ := encodeB64_chars hb c hc
  obtain ⟨h46, -, -⟩ := b64char_not_special hn
  subst hcn
  intro hcontra
  have : (b64char n).toNat = 46 := by
    rw [hcontra]
    decide
  omega

/-- Master round trip: validating a freshly generated token reduces to the
expiry comparison, and on success returns exactly the generated claims. -/
lemma validate_generate (cn : List Char) (ttl : Int) (secret : Bytes) (now now2 : Int) :
    validateToken
      (encodeB64 (marshalClaims ⟨cn, unixSec now, unixSec (now + ttl)⟩) ++
        Char.ofNat 46 ::
          encodeB64 (computeHMAC (marshalClaims ⟨cn, unixSec now, unixSec (now + ttl)⟩) secret))
      secret now2 =
    if unixSec now2 > unixSec (now + ttl) then Except.error TokenError.tokenExpired
    else Except.ok ⟨cn, unixSec now, unixSec (now + ttl)⟩ := by
  have hbp := marshalClaims_bytes_lt ⟨cn, unixSec now, unixSec (now + ttl)⟩
  have hbs := computeHMAC_bytes_lt (marshalClaims ⟨cn, unixSec now, unixSec (now + ttl)⟩) secret
  have hsplit := splitOnDot_two (encodeB64_no_dot hbp) (encodeB64_no_dot hbs)
  have hd1 := decodeB64_encodeB64 hbp
  have hd2 := decodeB64_encodeB64 hbs
  have hmac := hmacEqual_self
    (computeHMAC (marshalClaims ⟨cn, unixSec now, unixSec (now + ttl)⟩) secret)
  have hum := unmarshalClaims_marshalClaims ⟨cn, unixSec now, unixSec (now + ttl)⟩
  unfold validateToken
  rw [hsplit]
  simp only [hd1, hd2, hmac, if_true, hum]

/-- C1. Round-trip: for every commonName, positive ttl and secret, validating
a token freshly generated under the same secret, at any instant no later than
the expiry instant, succeeds and returns claims whose commonName is the one
given to GenerateToken. -/
theorem C1_generate_validate_roundtrip (cn : List Char) (ttl : Int) (secret : Bytes)
    (now now2 : Int) (httl : 0 < ttl) (hbefore : now2 ≤ now + ttl) :
    ∃ tok expAt, generateToken cn ttl secret now = Except.ok (tok, expAt) ∧
      ∃ claims, validateToken tok secret now2 = Except.ok claims ∧ claims.cn = cn := by
  refine ⟨_, _, rfl, ⟨cn, unixSec now, unixSec (now + ttl)⟩, ?_, rfl⟩
  rw [validate_generate]
  rw [if_neg (by have := unixSec_mono hbefore; omega)]

/-- Witness for C1 at a concrete input. -/
theorem C1_generate_validate_roundtrip_witness :
    ∃ tok expAt,
      generateToken (("alice").data) 3600000000000 [1, 2] 0 = Except.ok (tok, expAt) ∧
      ∃ claims, validateToken tok [1, 2] 1800000000000 = Except.ok claims ∧
        claims.cn = ("alice").data :=
  C1_generate_validate_roundtrip _ _ _ _ _ (by decide) (by decide)

/-- C2 (amended). Error taxonomy and check order of ValidateToken: (i) any
input that is not two dot-separated base64url-decodable segments yields
ErrInvalidToken; (ii) whenever the decoded MAC differs from the recomputed
MAC the result is ErrInvalidSignature, regardless of the payload; (iii) a
token generated with ttl at most minus one second, validated under the same
secret at or after its generation instant, yields ErrTokenExpired — never
ErrInvalidSignature, since the signature check precedes the expiry check.
(The original claim's "every ttl < 0" fails for sub-second negative ttl
because `Unix()` truncates to seconds; see the counterexample.) -/
theorem C2_validate_error_taxonomy :
    (∀ (s : List Char) (secret : Bytes) (now : Int),
      (¬∃ p sg payload sig, splitOnDot s = [p, sg] ∧ decodeB64 p = some payload ∧
        decodeB64 sg = some sig) →
      validateToken s secret now = Except.error TokenError.invalidToken) ∧
    (∀ (s : List Char) (secret : Bytes) (now : Int) (p sg : List Char) (payload sig : Bytes),
      splitOnDot s = [p, sg] → decodeB64 p = some payload → decodeB64 sg = some sig →
      sig ≠ computeHMAC payload secret →
      validateToken s secret now = Except.error TokenError.invalidSignature) ∧
    (∀ (cn : List Char) (ttl : Int) (secret : Bytes) (now now2 : Int),
      ttl ≤ -1000000000 → now ≤ now2 →
      ∀ tok expAt, generateToken cn ttl secret now = Except.ok (tok, expAt) →
      validateToken tok secret now2 = Except.error TokenError.tokenExpired) := by
  refine ⟨?_, ?_, ?_⟩
  · intro s secret now h
    unfold validateToken
    cases hsp : splitOnDot s with
    | nil => rfl
    | cons p rest =>
      cases rest with
      | nil => rfl
      | cons sg rest2 =>
        cases rest2 with
        | nil =>
          cases hdp : decodeB64 p with
          | none => simp [hdp]
          | some payload =>
            cases hdsg : decodeB64 sg with
            | none => simp [hdp, hdsg]
            | some sig => exact absurd ⟨p, sg, payload, sig, hsp, hdp, hdsg⟩ h
        | cons x r => rfl
  · intro s secret now p sg payload sig hsp hdp hdsg hne
    unfold validateToken
    rw [hsp]
    simp only [hdp, hdsg]
    rw [if_neg (fun hq => hne (hmacEqual_eq hq))]
  · intro cn ttl secret now now2 httl hle tok expAt htok
    simp only [generateToken, jsonMarshalClaims, Except.ok.injEq, Prod.mk.injEq] at htok
    rw [← htok.1, validate_generate]
    rw [if_pos (by unfold unixSec; omega)]

/-- Counterexample to C2 as stated: with ttl = -0.4s (a negative ttl) and
generation time 1.5s after the epoch, the generated expiry truncates to the
same Unix second as the validation instant, so validation succeeds instead of
returning ErrTokenExpired. -/
theorem C2_negative_ttl_not_expired_counterexample :
    (-400000000 : Int) < 0 ∧
    ∃ tok expAt,
      generateToken [Char.ofNat 97] (-400000000) [] 1500000000 = Except.ok (tok, expAt) ∧
      validateToken tok [] 1500000000 ≠ Except.error TokenError.tokenExpired := by
  refine ⟨by decide, _, _, rfl, ?_⟩
  rw [validate_generate]
  rw [if_neg (by decide)]
  simp

/-- Witness for C2 (amended) at concrete inputs: an input with no dot, a
two-segment input whose MAC has the wrong length, and a token generated with
ttl = -1s. -/
theorem C2_validate_error_taxonomy_witness :
    validateToken (("nodot").data) [] 0 = Except.error TokenError.invalidToken ∧
    validateToken (("AA").data ++ Char.ofNat 46 :: ("AA").data) [] 0 =
      Except.error TokenError.invalidSignature ∧
    ∃ tok expAt,
      generateToken [Char.ofNat 97] (-1000000000) [] 1500000000 = Except.ok (tok, expAt) ∧
      validateToken tok [] 1500000000 = Except.error TokenError.tokenExpired := by
  refine ⟨?_, ?_, ?_⟩
  · refine C2_validate_error_taxonomy.1 _ [] 0 ?_
    rintro ⟨p, sg, payload, sig, hsp, -, -⟩
    rw [show splitOnDot (("nodot").data) = [("nodot").data] from by decide] at hsp
    simp at hsp
  · refine C2_validate_error_taxonomy.2.1 _ [] 0 (("AA").data) (("AA").data) [0] [0]
      (by decide) (by decide) (by decide) ?_
    intro hcontra
    have hlen := computeHMAC_length [0] []
    rw [← hcontra] at hlen
    simp at hlen
  · exact ⟨_, _, rfl,
      C2_validate_error_taxonomy.2.2 _ _ [] 1500000000 1500000000 (by decide) (by decide)
        _ _ rfl⟩

/-- C10. GenerateToken never returns an error: for every commonName, every
ttl (including zero and negative) and every secret (including the empty one)
it returns a token string and the expiry instant `now + ttl`; the token has
the two-segment dotted shape. -/
theorem C10_generate_token_total (cn : List Char) (ttl : Int) (secret : Bytes) (now : Int) :
    ∃ tok expAt, generateToken cn ttl secret now = Except.ok (tok, expAt) ∧
      expAt = now + ttl ∧ (splitOnDot tok).length = 2 := by
  refine ⟨_, _, rfl, rfl, ?_⟩
  rw [splitOnDot_two
    (encodeB64_no_dot (marshalClaims_bytes_lt ⟨cn, unixSec now, unixSec (now + ttl)⟩))
    (encodeB64_no_dot (computeHMAC_bytes_lt _ secret))]
  rfl

/-! ## Identity extraction and middleware (auth.go, middleware.go)

`http.Request` is modelled by the fields the middleware reads: the raw peer
address, the two proxy headers, the Authorization header (Go's `Header.Get`
returns "" for an absent header, modelled as the empty string) and the
verified peer-certificate list (a nil TLS state and an empty certificate list
both become the empty list). A certificate subject is modelled as its common
name plus the remaining rendered RDN components of `pkix.Name.String()`. -/

/-- A certificate subject: the common name and the other non-empty rendered
`TYPE=value` components of `pkix.Name.String()` (RDN value escaping is
internal to those components). -/
structure PkixName where
  commonName : List Char
  extraComponents : List (List Char)

/-- Join rendered RDN components with commas. -/
def joinComma : List (List Char) → List Char
  | [] => []
  | [x] => x
  | x :: y :: t => x ++ Char.ofNat 44 :: joinComma (y :: t)

/-- `pkix.Name.String()`: the CN component first when the common name is
non-empty, then the remaining components, comma-separated; the empty string
for an empty subject. -/
def pkixNameString (n : PkixName) : List Char :=
  joinComma ((if n.commonName = [] then [] else [("CN=").data ++ n.commonName]) ++
    n.extraComponents)

/-- A verified peer certificate, restricted to the fields the extractor
reads. -/
structure Certificate where
  subject : PkixName
  serialNumber : Nat
  notAfter : Int

/-- Decimal string of a certificate serial number (`big.Int.String`). -/
def natDecimalChars (n : Nat) : List Char := (natToDigits n).map Char.ofNat

/-- `UserContext` from auth.go. -/
structure UserContext where
  cn : List Char
  dn : List Char
  serial : List Char
  notAfter : Int
  authMethod : List Char
  tokenID : List Char
deriving DecidableEq

/-- The inbound request, restricted to what the middleware reads. -/
structure Request where
  remoteAddr : List Char
  xff : List Char
  xri : List Char
  authorization : List Char
  peerCerts : List Certificate

/-- `SingleUserContext()` from auth.go. -/
def singleUserContext : UserContext :=
  ⟨("single-user-mode").data, [], [], 0, ("none").data, []⟩

/-- `ExtractUserFromCert` from auth.go: `none` when no peer certificate is
present, otherwise the identity derived from the first certificate. -/
def extractUserFromCert (r : Request) : Option UserContext :=
  match r.peerCerts with
  | [] => none
  | cert :: _ =>
    some ⟨cert.subject.commonName, pkixNameString cert.subject,
      natDecimalChars cert.serialNumber, cert.notAfter, ("cert").data, []⟩

/-- Go `unicode.IsSpace` on a character. -/
def isGoSpace (c : Char) : Bool :=
  c.toNat = 9 || c.toNat = 10 || c.toNat = 11 || c.toNat = 12 || c.toNat = 13 ||
    c.toNat = 32 || c.toNat = 133 || c.toNat = 160 || c.toNat = 5760 ||
    (8192 ≤ c.toNat && c.toNat ≤ 8202) || c.toNat = 8232 || c.toNat = 8233 ||
    c.toNat = 8239 || c.toNat = 8287 || c.toNat = 12288

/-- `strings.TrimSpace`. -/
def goTrimSpace (s : List Char) : List Char :=
  ((s.dropWhile isGoSpace).reverse.dropWhile isGoSpace).reverse

/-- `strings.Index(s, ",")`: the position of the first comma, if any. -/
def goIndexComma : List Char → Option Nat
  | [] => none
  | c :: t => if c = Char.ofNat 44 then some 0 else (goIndexComma t).map (· + 1)

/-- `ExtractSourceIP` from middleware.go: with `trustProxy` the first
address of X-Forwarded-For (up to the first comma, trimmed), else X-Real-IP,
else the transport peer address; without `trustProxy` always the transport
peer address. -/
def extractSourceIP (r : Request) (trustProxy : Bool) : List Char :=
  if trustProxy then
    if r.xff ≠ [] then
      match goIndexComma r.xff with
      | some i => goTrimSpace (r.xff.take i)
      | none => goTrimSpace r.xff
    else if r.xri ≠ [] then r.xri
    else r.remoteAddr
  else r.remoteAddr

/-- One call on the injected `SecurityLogger` interface. -/
inductive LogEvent where
  | authSuccess (user : UserContext) (ip : List Char)
  | authFailure (reason details ip : List Char)
deriving DecidableEq

/-- `MiddlewareConfig` from middleware.go: the token validator is the
injected revocation check (returning a token ID or an error message), and a
configured logger is represented by `hasLogger` with the emitted events
collected in the result. -/
structure MiddlewareConfig where
  secret : Bytes
  tokenValidator : Option (List Char → Except (List Char) (List Char))
  hasLogger : Bool
  authEnabled : Bool
  trustProxy : Bool

/-- The observable outcome of one middleware invocation: the identity passed
downstream via the request context (if the wrapped handler was called), the
response headers set, the error response written (if any), and the security
log events emitted. -/
structure MWResult where
  nextUser : Option UserContext
  xAuthUser : Option (List Char)
  xAuthMethod : Option (List Char)
  errorResp : Option (Nat × List Char)
  events : List LogEvent

/-- `http.Error(w, msg, code)`: status code plus the message and a newline. -/
def httpError (code : Nat) (msg : List Char) : Nat × List Char :=
  (code, msg ++ [Char.ofNat 10])

def unauthorizedMsg : List Char := ("Unauthorized").data

def certRequiredMsg : List Char := ("Client certificate required").data

def bearerStr : List Char := ("Bearer ").data

/-- Events reach the logger only when one is configured. -/
def logIf (hasLogger : Bool) (es : List LogEvent) : List LogEvent :=
  if hasLogger then es else []

/-- `strings.HasPrefix`. -/
def strHasPre : List Char → List Char → Bool
  | [], _ => true
  | _ :: _, [] => false
  | p :: ps, c :: cs => p == c && strHasPre ps cs

/-- `Middleware` from middleware.go, as a function from the configuration,
the request and the current time to the observable outcome. -/
def middleware (cfg : MiddlewareConfig) (r : Request) (now : Int) : MWResult :=
  let sourceIP := extractSourceIP r cfg.trustProxy
  if cfg.authEnabled = false then
    ⟨some singleUserContext, none, none, none, []⟩
  else
    match extractUserFromCert r with
    | some user =>
      ⟨some user, some user.cn, some (("cert").data), none,
        logIf cfg.hasLogger [.authSuccess user sourceIP]⟩
    | none =>
      if strHasPre bearerStr r.authorization then
        match validateToken (r.authorization.drop bearerStr.length) cfg.secret now with
        | .error e =>
          ⟨none, none, none, some (httpError 401 unauthorizedMsg),
            logIf cfg.hasLogger [.authFailure (("invalid_token").data) (errMessage e) sourceIP]⟩
        | .ok claims =>
          match cfg.tokenValidator with
          | some validator =>
            match validator (r.authorization.drop bearerStr.length) with
            | .error err =>
              ⟨none, none, none, some (httpError 401 unauthorizedMsg),
                logIf cfg.hasLogger [.authFailure (("token_revoked").data) err sourceIP]⟩
            | .ok tokenID =>
              ⟨some ⟨claims.cn, [], [], 0, ("token").data, tokenID⟩,
                some claims.cn, some (("token").data), none,
                logIf cfg.hasLogger
                  [.authSuccess ⟨claims.cn, [], [], 0, ("token").data, tokenID⟩ sourceIP]⟩
          | none =>
            ⟨some ⟨claims.cn, [], [], 0, ("token").data, []⟩,
              some claims.cn, some (("token").data), none,
              logIf cfg.hasLogger
                [.authSuccess ⟨claims.cn, [], [], 0, ("token").data, []⟩ sourceIP]⟩
      else
        ⟨none, none, none, some (httpError 401 unauthorizedMsg),
          logIf cfg.hasLogger [.authFailure (("no_credentials").data) [] sourceIP]⟩

/-- `RequireCertAuth` from middleware.go: like `Middleware` but never
attempting token authentication. -/
def requireCertAuth (cfg : MiddlewareConfig) (r : Request) : MWResult :=
  let sourceIP := extractSourceIP r cfg.trustProxy
  if cfg.authEnabled = false then
    ⟨some singleUserContext, none, none, none, []⟩
  else
    match extractUserFromCert r with
    | some user =>
      ⟨some user, some user.cn, some (("cert").data), none,
        logIf cfg.hasLogger [.authSuccess user sourceIP]⟩
    | none =>
      ⟨none, none, none, some (httpError 401 certRequiredMsg),
        logIf cfg.hasLogger
          [.authFailure (("cert_required").data) (("token auth not accepted").data) sourceIP]⟩

/-- Exhaustive description of the observable outcomes of `middleware`. -/
lemma middleware_characterization (cfg : MiddlewareConfig) (r : Request) (now : Int) :
    (cfg.authEnabled = false ∧
      middleware cfg r now = ⟨some singleUserContext, none, none, none, []⟩) ∨
    (cfg.authEnabled = true ∧ (∃ user, extractUserFromCert r = some user ∧
      middleware cfg r now = ⟨some user, some user.cn, some (("cert").data), none,
        logIf cfg.hasLogger [.authSuccess user (extractSourceIP r cfg.trustProxy)]⟩)) ∨
    (cfg.authEnabled = true ∧ extractUserFromCert r = none ∧ (∃ e,
      middleware cfg r now = ⟨none, none, none, some (httpError 401 unauthorizedMsg),
        logIf cfg.hasLogger [.authFailure (("invalid_token").data) (errMessage e)
          (extractSourceIP r cfg.trustProxy)]⟩)) ∨
    (cfg.authEnabled = true ∧ extractUserFromCert r = none ∧ (∃ err,
      middleware cfg r now = ⟨none, none, none, some (httpError 401 unauthorizedMsg),
        logIf cfg.hasLogger [.authFailure (("token_revoked").data) err
          (extractSourceIP r cfg.trustProxy)]⟩)) ∨
    (cfg.authEnabled = true ∧ extractUserFromCert r = none ∧ (∃ cn tokenID,
      middleware cfg r now = ⟨some ⟨cn, [], [], 0, ("token").data, tokenID⟩, some cn,
        some (("token").data), none,
        logIf cfg.hasLogger [.authSuccess ⟨cn, [], [], 0, ("token").data, tokenID⟩
          (extractSourceIP r cfg.trustProxy)]⟩)) ∨
    (cfg.authEnabled = true ∧ extractUserFromCert r = none ∧
      middleware cfg r now = ⟨none, none, none, some (httpError 401 unauthorizedMsg),
        logIf cfg.hasLogger [.authFailure (("no_credentials").data) []
          (extractSourceIP r cfg.trustProxy)]⟩) := by
  by_cases hA : cfg.authEnabled = false
  · exact Or.inl ⟨hA, by simp [middleware, hA]⟩
  · have hA2 : cfg.authEnabled = true := by
      cases h : cfg.authEnabled
      · exact absurd h hA
      · rfl
    cases hu : extractUserFromCert r with
    | some user =>
      exact Or.inr (Or.inl ⟨hA2, user, rfl, by simp [middleware, hA2, hu]⟩)
    | none =>
      by_cases hb : strHasPre bearerStr r.authorization = true
      · cases hv : validateToken (r.authorization.drop bearerStr.length) cfg.secret now with
        | error e =>
          refine Or.inr (Or.inr (Or.inl ⟨hA2, rfl, e, ?_⟩))
          simp [middleware, hA2, hu, hb, hv]
        | ok claims =>
          cases hval : cfg.tokenValidator with
          | none =>
            refine Or.inr (Or.inr (Or.inr (Or.inr (Or.inl ⟨hA2, rfl, claims.cn, [], ?_⟩))))
            simp [middleware, hA2, hu, hb, hv, hval]
          | some validator =>
            cases hres : validator (r.authorization.drop bearerStr.length) with
            | error err =>
              refine Or.inr (Or.inr (Or.inr (Or.inl ⟨hA2, rfl, err, ?_⟩)))
              simp [middleware, hA2, hu, hb, hv, hval, hres]
            | ok tokenID =>
              refine Or.inr (Or.inr (Or.inr (Or.inr (Or.inl
                ⟨hA2, rfl, claims.cn, tokenID, ?_⟩))))
              simp [middleware, hA2, hu, hb, hv, hval, hres]
      · refine Or.inr (Or.inr (Or.inr (Or.inr (Or.inr ⟨hA2, rfl, ?_⟩))))
        simp [middleware, hA2, hu, hb]

/-- Exhaustive description of the observable outcomes of `requireCertAuth`. -/
lemma requireCertAuth_characterization (cfg : MiddlewareConfig) (r : Request) :
    (cfg.authEnabled = false ∧
      requireCertAuth cfg r = ⟨some singleUserContext, none, none, none, []⟩) ∨
    (cfg.authEnabled = true ∧ (∃ user, extractUserFromCert r = some user ∧
      requireCertAuth cfg r = ⟨some user, some user.cn, some (("cert").data), none,
        logIf cfg.hasLogger [.authSuccess user (extractSourceIP r cfg.trustProxy)]⟩)) ∨
    (cfg.authEnabled = true ∧ extractUserFromCert r = none ∧
      requireCertAuth cfg r = ⟨none, none, none, some (httpError 401 certRequiredMsg),
        logIf cfg.hasLogger
          [.authFailure (("cert_required").data) (("token auth not accepted").data)
            (extractSourceIP r cfg.trustProxy)]⟩) := by
  by_cases hA : cfg.authEnabled = false
  · exact Or.inl ⟨hA, by simp [requireCertAuth, hA]⟩
  · have hA2 : cfg.authEnabled = true := by
      cases h : cfg.authEnabled
      · exact absurd h hA
      · rfl
    cases hu : extractUserFromCert r with
    | some user =>
      exact Or.inr (Or.inl ⟨hA2, user, rfl, by simp [requireCertAuth, hA2, hu]⟩)
    | none =>
      exact Or.inr (Or.inr ⟨hA2, rfl, by simp [requireCertAuth, hA2, hu]⟩)

/-- C3: every request through `Middleware` yields exactly one outcome — either
an identity is passed downstream with no error response, or an error response
is written with no identity, never both and never neither. The logging half
of the claim holds only conditionally: exactly one security event is emitted
precisely when authentication is enabled and a logger is configured, and no
event otherwise. -/
theorem C3_middleware_single_outcome_and_logging (cfg : MiddlewareConfig) (r : Request)
    (now : Int) :
    (((middleware cfg r now).nextUser ≠ none ∧ (middleware cfg r now).errorResp = none) ∨
      ((middleware cfg r now).nextUser = none ∧ (middleware cfg r now).errorResp ≠ none)) ∧
    (middleware cfg r now).events.length =
      (if cfg.authEnabled = true ∧ cfg.hasLogger = true then 1 else 0) := by
  rcases middleware_characterization cfg r now with
    ⟨hA, hm⟩ | ⟨hA, user, _, hm⟩ | ⟨hA, _, e, hm⟩ | ⟨hA, _, err, hm⟩ |
    ⟨hA, _, cn, tid, hm⟩ | ⟨hA, _, hm⟩ <;>
  rw [hm] <;>
  cases hL : cfg.hasLogger <;>
  simp [logIf, hA, hL]

/-- C3 counterexample to "unconditionally emits exactly one SecurityLogger
event": with authentication disabled no event is emitted even though a logger
is configured, and with authentication enabled but no logger configured a
rejected request also emits no event. -/
theorem C3_no_event_counterexample :
    (middleware ⟨[], none, true, false, false⟩ ⟨[], [], [], [], []⟩ 0).events = [] ∧
    (middleware ⟨[], none, false, true, false⟩ ⟨[], [], [], [], []⟩ 0).events = [] := by
  decide

/-- C4: within each middleware every rejection is uniform — `Middleware`
always writes status 401 with body "Unauthorized" and `RequireCertAuth`
always writes status 401 with body "Client certificate required" — so the
response never reveals which check failed within one middleware; but the two
middlewares use different bodies, so the claim's cross-middleware uniformity
fails. -/
theorem C4_uniform_rejection (cfg : MiddlewareConfig) (r : Request) (now : Int) :
    ((middleware cfg r now).errorResp = none ∨
      (middleware cfg r now).errorResp = some (401, unauthorizedMsg ++ [Char.ofNat 10])) ∧
    ((requireCertAuth cfg r).errorResp = none ∨
      (requireCertAuth cfg r).errorResp = some (401, certRequiredMsg ++ [Char.ofNat 10])) := by
  constructor
  · rcases middleware_characterization cfg r now with
      ⟨_, hm⟩ | ⟨_, user, _, hm⟩ | ⟨_, _, e, hm⟩ | ⟨_, _, err, hm⟩ |
      ⟨_, _, cn, tid, hm⟩ | ⟨_, _, hm⟩ <;> rw [hm] <;> simp [httpError]
  · rcases requireCertAuth_characterization cfg r with
      ⟨_, hm⟩ | ⟨_, user, _, hm⟩ | ⟨_, _, hm⟩ <;> rw [hm] <;> simp [httpError]

/-- C4 counterexample: the same credential-less request rejected by
`Middleware` and by `RequireCertAuth` receives two different response bodies,
so failures across the two middlewares are distinguishable at the boundary. -/
theorem C4_distinct_bodies_counterexample :
    (middleware ⟨[], none, false, true, false⟩ ⟨[], [], [], [], []⟩ 0).errorResp =
      some (401, unauthorizedMsg ++ [Char.ofNat 10]) ∧
    (requireCertAuth ⟨[], none, false, true, false⟩ ⟨[], [], [], [], []⟩).errorResp =
      some (401, certRequiredMsg ++ [Char.ofNat 10]) ∧
    unauthorizedMsg ≠ certRequiredMsg := by
  decide

/-- `requireCertAuth` never reads the Authorization header. -/
lemma requireCertAuth_auth_independent (cfg : MiddlewareConfig) (r : Request)
    (a : List Char) :
    requireCertAuth cfg ⟨r.remoteAddr, r.xff, r.xri, a, r.peerCerts⟩ =
      requireCertAuth cfg r := by
  cases r
  rfl

/-- C5: with authentication enabled, no peer certificate and a bearer token
that `validateToken` accepts, `RequireCertAuth` still rejects with the
certificate-required response, logs `cert_required` with details
"token auth not accepted" when a logger is configured, and its outcome does
not depend on the Authorization header at all (token validation is never
attempted). -/
theorem C5_requireCert_rejects_valid_token (cfg : MiddlewareConfig) (r : Request)
    (now : Int) (tokenStr : List Char) (claims : TokenClaims)
    (hA : cfg.authEnabled = true) (hnc : r.peerCerts = [])
    (hauth : r.authorization = bearerStr ++ tokenStr)
    (hval : validateToken tokenStr cfg.secret now = Except.ok claims) :
    (requireCertAuth cfg r).errorResp = some (httpError 401 certRequiredMsg) ∧
    (requireCertAuth cfg r).nextUser = none ∧
    (requireCertAuth cfg r).events =
      logIf cfg.hasLogger
        [.authFailure (("cert_required").data) (("token auth not accepted").data)
          (extractSourceIP r cfg.trustProxy)] ∧
    (∀ a, requireCertAuth cfg ⟨r.remoteAddr, r.xff, r.xri, a, r.peerCerts⟩ =
      requireCertAuth cfg r) := by
  have hun : extractUserFromCert r = none := by simp [extractUserFromCert, hnc]
  rcases requireCertAuth_characterization cfg r with
    ⟨hA2, _⟩ | ⟨_, user, hue, _⟩ | ⟨_, _, hm⟩
  · rw [hA] at hA2; exact absurd hA2 (by simp)
  · rw [hun] at hue; exact absurd hue (by simp)
  · exact ⟨by rw [hm], by rw [hm], by rw [hm],
      fun a => requireCertAuth_auth_independent cfg r a⟩

/-- A concrete token accepted by `validateToken` under the empty secret at
time 0, generated for common name "a" with a one-second ttl. -/
def c5token : List Char :=
  encodeB64 (marshalClaims ⟨[Char.ofNat 97], unixSec 0, unixSec (0 + 1000000000)⟩) ++
    Char.ofNat 46 ::
      encodeB64 (computeHMAC
        (marshalClaims ⟨[Char.ofNat 97], unixSec 0, unixSec (0 + 1000000000)⟩) [])

theorem C5_requireCert_rejects_valid_token_witness :
    (requireCertAuth ⟨[], none, true, true, false⟩
        ⟨[], [], [], bearerStr ++ c5token, []⟩).errorResp =
      some (httpError 401 certRequiredMsg) ∧
    (requireCertAuth ⟨[], none, true, true, false⟩
        ⟨[], [], [], bearerStr ++ c5token, []⟩).nextUser = none ∧
    (requireCertAuth ⟨[], none, true, true, false⟩
        ⟨[], [], [], bearerStr ++ c5token, []⟩).events =
      logIf true
        [.authFailure (("cert_required").data) (("token auth not accepted").data)
          (extractSourceIP ⟨[], [], [], bearerStr ++ c5token, []⟩ false)] ∧
    (∀ a, requireCertAuth ⟨[], none, true, true, false⟩ ⟨[], [], [], a, []⟩ =
      requireCertAuth ⟨[], none, true, true, false⟩
        ⟨[], [], [], bearerStr ++ c5token, []⟩) := by
  have h := validate_generate [Char.ofNat 97] 1000000000 [] 0 0
  rw [if_neg (by decide)] at h
  exact C5_requireCert_rejects_valid_token ⟨[], none, true, true, false⟩
    ⟨[], [], [], bearerStr ++ c5token, []⟩ 0 c5token
    ⟨[Char.ofNat 97], unixSec 0, unixSec (0 + 1000000000)⟩ rfl rfl rfl h

/-- A non-empty common name makes the rendered subject string non-empty. -/
lemma pkixNameString_ne_nil {n : PkixName} (h : n.commonName ≠ []) :
    pkixNameString n ≠ [] := by
  unfold pkixNameString
  rw [if_neg h]
  have h3 : ("CN=").data = Char.ofNat 67 :: ("N=").data := by decide
  rw [h3]
  cases n.extraComponents with
  | nil => simp [joinComma]
  | cons y t => simp [joinComma]

/-- C6: every identity `Middleware` attaches with authMethod "token" has an
empty DN, empty serial and zero expiry; every identity attached with
authMethod "cert" copies its DN, serial and expiry from the first peer
certificate, and its DN is non-empty whenever that certificate's common name
is — but nothing forces a certificate to have a non-empty subject or a
non-zero NotAfter, so the claim's unconditional non-emptiness fails. -/
theorem C6_attached_identity_fields (cfg : MiddlewareConfig) (r : Request) (now : Int)
    (u : UserContext) (hu : (middleware cfg r now).nextUser = some u) :
    (u.authMethod = ("token").data → u.dn = [] ∧ u.serial = [] ∧ u.notAfter = 0) ∧
    (u.authMethod = ("cert").data →
      ∃ cert, r.peerCerts.head? = some cert ∧ u.dn = pkixNameString cert.subject ∧
        u.serial = natDecimalChars cert.serialNumber ∧ u.notAfter = cert.notAfter ∧
        (cert.subject.commonName ≠ [] → u.dn ≠ [])) := by
  rcases middleware_characterization cfg r now with
    ⟨hA, hm⟩ | ⟨hA, user, hue, hm⟩ | ⟨hA, hun, e, hm⟩ | ⟨hA, hun, err, hm⟩ |
    ⟨hA, hun, cn, tid, hm⟩ | ⟨hA, hun, hm⟩ <;> rw [hm] at hu <;> simp at hu
  · subst hu
    exact ⟨fun h => absurd h (by decide), fun h => absurd h (by decide)⟩
  · cases hpc : r.peerCerts with
    | nil => rw [extractUserFromCert, hpc] at hue; exact absurd hue (by simp)
    | cons cert t =>
      rw [extractUserFromCert, hpc] at hue
      simp only [Option.some.injEq] at hue
      subst hue
      subst hu
      refine ⟨fun h =>
        absurd (show (("cert").data : List Char) = ("token").data from h) (by decide),
        fun _ => ⟨cert, by simp [hpc], rfl, rfl, rfl,
          fun hcn => pkixNameString_ne_nil hcn⟩⟩
  · subst hu
    exact ⟨fun _ => ⟨rfl, rfl, rfl⟩, fun h =>
      absurd (show (("token").data : List Char) = ("cert").data from h) (by decide)⟩

/-- C6 counterexample: a peer certificate with an empty subject and zero
NotAfter yields an attached cert identity whose DN is empty and whose expiry
is zero. -/
theorem C6_empty_dn_cert_identity_counterexample :
    (middleware ⟨[], none, false, true, false⟩
        ⟨[], [], [], [], [⟨⟨[], []⟩, 5, 0⟩]⟩ 0).nextUser =
      some ⟨[], [], [Char.ofNat 53], 0, ("cert").data, []⟩ := by
  have h5 : natDecimalChars 5 = [Char.ofNat 53] := by
    rw [natDecimalChars, natToDigits]
    norm_num
  rw [← h5]
  simp [middleware, extractUserFromCert, pkixNameString, joinComma]

def c6cfg : MiddlewareConfig := ⟨[], none, false, true, false⟩

def c6req : Request := ⟨[], [], [], [], [⟨⟨[Char.ofNat 97], []⟩, 7, 99⟩]⟩

def c6user : UserContext :=
  ⟨[Char.ofNat 97], pkixNameString ⟨[Char.ofNat 97], []⟩, natDecimalChars 7, 99,
    ("cert").data, []⟩

theorem C6_attached_identity_fields_witness :
    (c6user.authMethod = ("token").data →
      c6user.dn = [] ∧ c6user.serial = [] ∧ c6user.notAfter = 0) ∧
    (c6user.authMethod = ("cert").data →
      ∃ cert, c6req.peerCerts.head? = some cert ∧ c6user.dn = pkixNameString cert.subject ∧
        c6user.serial = natDecimalChars cert.serialNumber ∧
        c6user.notAfter = cert.notAfter ∧
        (cert.subject.commonName ≠ [] → c6user.dn ≠ [])) :=
  C6_attached_identity_fields c6cfg c6req 0 c6user rfl

/-- Taking up to the first comma equals taking while not a comma. -/
lemma take_goIndexComma (l : List Char) :
    (match goIndexComma l with | some i => l.take i | none => l) =
      l.takeWhile (fun c => !(c == Char.ofNat 44)) := by
  induction l with
  | nil => rfl
  | cons a t ih =>
    by_cases h : a = Char.ofNat 44
    · simp [goIndexComma, h, List.takeWhile_cons]
    · cases hf : goIndexComma t with
      | none =>
        have ih2 := ih
        rw [hf] at ih2
        simp only [goIndexComma, if_neg h, hf, Option.map_none']
        simp [List.takeWhile_cons, h]
        exact ih2
      | some i =>
        have ih2 := ih
        rw [hf] at ih2
        simp only [goIndexComma, if_neg h, hf, Option.map_some']
        simp [List.takeWhile_cons, h, List.take_succ_cons]
        exact ih2

/-- C8: with trustProxy off the extracted source address is exactly the
transport peer address, whatever the headers say; with it on, the first
comma-separated entry of X-Forwarded-For (trimmed) wins, then X-Real-IP
verbatim, then the peer address. -/
theorem C8_extract_source_ip :
    (∀ r : Request, extractSourceIP r false = r.remoteAddr) ∧
    (∀ r : Request, r.xff ≠ [] → extractSourceIP r true =
      goTrimSpace (r.xff.takeWhile (fun c => !(c == Char.ofNat 44)))) ∧
    (∀ r : Request, r.xff = [] → r.xri ≠ [] → extractSourceIP r true = r.xri) ∧
    (∀ r : Request, r.xff = [] → r.xri = [] → extractSourceIP r true = r.remoteAddr) := by
  refine ⟨fun r => by simp [extractSourceIP], fun r hx => ?_,
    fun r hx hr => by simp [extractSourceIP, hx, hr],
    fun r hx hr => by simp [extractSourceIP, hx, hr]⟩
  have h := take_goIndexComma r.xff
  simp only [extractSourceIP, if_pos, if_true, hx, ne_eq, not_false_iff, ite_true]
  cases hf : goIndexComma r.xff with
  | some i =>
    rw [hf] at h
    simpa using congrArg goTrimSpace h
  | none =>
    rw [hf] at h
    simpa using congrArg goTrimSpace h

theorem C8_extract_source_ip_witness :
    extractSourceIP
        ⟨("10.0.0.9:4242").data, ("1.2.3.4, 5.6.7.8").data, ("7.7.7.7").data, [], []⟩
        false = ("10.0.0.9:4242").data ∧
    ((("1.2.3.4, 5.6.7.8").data : List Char) ≠ [] ∧
      extractSourceIP
        ⟨("10.0.0.9:4242").data, ("1.2.3.4, 5.6.7.8").data, ("7.7.7.7").data, [], []⟩
        true =
        goTrimSpace ((("1.2.3.4, 5.6.7.8").data).takeWhile
          (fun c => !(c == Char.ofNat 44)))) ∧
    (([] : List Char) = [] ∧ (("7.7.7.7").data : List Char) ≠ [] ∧
      extractSourceIP ⟨("10.0.0.9:4242").data, [], ("7.7.7.7").data, [], []⟩ true =
        ("7.7.7.7").data) ∧
    (([] : List Char) = [] ∧ ([] : List Char) = [] ∧
      extractSourceIP ⟨("10.0.0.9:4242").data, [], [], [], []⟩ true =
        ("10.0.0.9:4242").data) :=
  ⟨C8_extract_source_ip.1 _,
    ⟨by decide, C8_extract_source_ip.2.1 _ (by decide)⟩,
    ⟨rfl, by decide, C8_extract_source_ip.2.2.1 _ rfl (by decide)⟩,
    ⟨rfl, rfl, C8_extract_source_ip.2.2.2 _ rfl rfl⟩⟩

end Cue
